import Mathlib

/-!
Verification of the DESC meetings scraper
(`city_scrapers/spiders/det_employment_solutions_corp.py`).

The Python source is shallowly embedded over `List Char`.  Regular
expressions from the source are hand-compiled to deterministic scanners;
wherever Python's backtracking engine could in principle explore several
alternatives, a comment justifies why the compiled deterministic behaviour
coincides with the engine's answer on every input.  Raised exceptions are
modelled as `Option`/error results.
-/

namespace Desc

/-- Python `\s` on the character sets relevant here: ASCII whitespace plus
the Unicode whitespace code points matched by `re` in text mode. -/
def pyWs (c : Char) : Bool :=
  c.toNat ∈ [32, 9, 10, 11, 12, 13, 28, 29, 30, 31, 133, 160, 0x1680,
    0x2000, 0x2001, 0x2002, 0x2003, 0x2004, 0x2005, 0x2006, 0x2007,
    0x2008, 0x2009, 0x200a, 0x2028, 0x2029, 0x202f, 0x205f, 0x3000]

/-- ASCII `[A-Z]`. -/
def upperA (c : Char) : Bool := 'A' ≤ c && c ≤ 'Z'

/-- ASCII `[0-9]` (the documents parsed here are ASCII; Python's `\d`
additionally matches non-ASCII decimal digits). -/
def digitA (c : Char) : Bool := '0' ≤ c && c ≤ '9'

/-- ASCII `[a-z]`. -/
def lowerA (c : Char) : Bool := 'a' ≤ c && c ≤ 'z'

/-- The character set `[A-Z0-9:\n ]` of the duplicate-collapse pattern. -/
def dupCC (c : Char) : Bool :=
  upperA c || digitA c || c = ':' || c = '\n' || c = ' '

/-- `re.sub(r"([A-Z0-9:\n ]{2})\1", r"\1", text)`: scan left to right;
a match at a position is exactly two class characters followed by their
literal repetition (the `{2}` group is fixed-width, so no backtracking
arises); on a match emit the group once and resume after the match. -/
def collapseDup : List Char → List Char
  | a :: b :: c :: d :: rest =>
    if dupCC a && dupCC b && c = a && d = b then
      a :: b :: collapseDup rest
    else
      a :: collapseDup (b :: c :: d :: rest)
  | s => s

/-- The lookbehind class `[A-Z0-9:]` of the newline-join pattern. -/
def joinCC (c : Char) : Bool := upperA c || digitA c || c = ':'

/-- Tail worker for `dropNlAfter`; `prev` is the character of the
*original* string immediately before the current position (lookbehinds in
`re.sub` inspect the original text, and the replacement is empty, so the
original predecessor is the relevant one). -/
def dropNlGo : Char → List Char → List Char
  | _, [] => []
  | prev, c :: rest =>
    if c = '\n' && joinCC prev then dropNlGo c rest
    else c :: dropNlGo c rest

/-- `re.sub(r"(?<=[A-Z0-9:])\n", "", text)`: delete every newline whose
original predecessor is in `[A-Z0-9:]`.  A leading newline has no
predecessor and is kept. -/
def dropNlAfter : List Char → List Char
  | [] => []
  | c :: rest => c :: dropNlGo c rest

/-- `.replace("\n", " ")`. -/
def nlToSpace (s : List Char) : List Char :=
  s.map fun c => if c = '\n' then ' ' else c

/-- Worker for `squashWs`; the flag records whether the previous character
belonged to a whitespace run that has already emitted its single space. -/
def squashGo : Bool → List Char → List Char
  | _, [] => []
  | inRun, c :: rest =>
    if pyWs c then
      if inRun then squashGo true rest else ' ' :: squashGo true rest
    else c :: squashGo false rest

/-- `re.sub(r"\s+", " ", text)`: each maximal whitespace run becomes one
space (`\s+` is greedy and the replacement never creates new runs because
scanning resumes after the consumed run). -/
def squashWs (s : List Char) : List Char := squashGo false s

/-- The Text Normalizer: the three cleaning passes of
`_parse_schedule_pdf` (source lines 66-70) in order. -/
def normText (s : List Char) : List Char :=
  squashWs (nlToSpace (dropNlAfter (collapseDup s)))

/-! ## The clock-time patterns

`re.findall(r"\d{1,2}[:]\d{2}\s*[a|p|A|P][m|M].*?\d{1,2}[:]\d{2}\s*[a|p|A|P][m|M]", ...)`
and the inner single-time pattern `\d{1,2}[:]\d{2}\s*[a|p|A|P][m|M]`
(source lines 75-81).  Note both bracket classes contain a literal pipe. -/

/-- The class `[a|p|A|P]`. -/
def apCC (c : Char) : Bool := c = 'a' || c = 'p' || c = 'A' || c = 'P' || c = '|'

/-- The class `[m|M]`. -/
def mCC (c : Char) : Bool := c = 'm' || c = 'M' || c = '|'

/-- `[:]\d{2}\s*[a|p|A|P][m|M]` at the head of the input; returns
(consumed, rest).  `\s*` is greedy; a shorter whitespace choice would put
a whitespace character under `[a|p|A|P]`, which cannot match, so the
maximal run is the only viable one and no backtracking case remains. -/
def timeTail : List Char → Option (List Char × List Char)
  | ':' :: m1 :: m2 :: rest =>
    if digitA m1 && digitA m2 then
      match rest.dropWhile pyWs with
      | a :: m :: r3 =>
        if apCC a && mCC m then
          some (':' :: m1 :: m2 :: (rest.takeWhile pyWs ++ [a, m]), r3)
        else none
      | _ => none
    else none
  | _ => none

/-- The single-time pattern `\d{1,2}[:]\d{2}\s*[a|p|A|P][m|M]` at the head
of the input.  `\d{1,2}` is greedy; when two digits are available and the
rest fails, the one-digit alternative needs `[:]` where the second digit
stands, so it fails as well — the compiled function is deterministic. -/
def timeAt : List Char → Option (List Char × List Char)
  | d1 :: d2 :: rest =>
    if digitA d1 then
      if digitA d2 then
        match timeTail rest with
        | some (m, r) => some (d1 :: d2 :: m, r)
        | none => none
      else
        match timeTail (d2 :: rest) with
        | some (m, r) => some (d1 :: m, r)
        | none => none
    else none
  | _ => none

/-- `re.findall` scan for the single-time pattern: leftmost matches, no
overlap, resuming after each match.  Fuel is the remaining input length;
every match consumes at least one character, so the initial fuel
`s.length` suffices. -/
def findallTimeGo : Nat → List Char → List (List Char)
  | 0, _ => []
  | _ + 1, [] => []
  | fuel + 1, c :: rest =>
    match timeAt (c :: rest) with
    | some (m, r) => m :: findallTimeGo fuel r
    | none => findallTimeGo fuel rest

/-- `re.findall(inner-time-pattern, s)`. -/
def findallTime (s : List Char) : List (List Char) := findallTimeGo s.length s

/-- The lazy gap `.*?` followed by a second single-time match: try the
time pattern at the current position, else consume one non-newline
character (`.` does not match `\n`) and continue.  Returns
(gap, second match, rest). -/
def gapGo : Nat → List Char → Option (List Char × List Char × List Char)
  | 0, _ => none
  | _ + 1, [] => none
  | fuel + 1, c :: rest =>
    match timeAt (c :: rest) with
    | some (m, r) => some ([], m, r)
    | none =>
      if c = '\n' then none
      else
        match gapGo fuel rest with
        | some (g, m, r) => some (c :: g, m, r)
        | none => none

/-- The two-time pattern `time.*?time` at the head of the input.  If the
gap search fails, Python would backtrack into the first time match, but
shrinking its `\s*` exposes a whitespace character to `[a|p|A|P]` and
shrinking `\d{1,2}` exposes a digit to `[:]`, so every alternative fails
and the compiled function is again deterministic. -/
def twoTimeAt (s : List Char) : Option (List Char × List Char) :=
  match timeAt s with
  | some (m1, r1) =>
    match gapGo r1.length r1 with
    | some (g, m2, r2) => some (m1 ++ g ++ m2, r2)
    | none => none
  | none => none

/-- `re.findall` scan for the two-time pattern. -/
def findallTwoGo : Nat → List Char → List (List Char)
  | 0, _ => []
  | _ + 1, [] => []
  | fuel + 1, c :: rest =>
    match twoTimeAt (c :: rest) with
    | some (m, r) => m :: findallTwoGo fuel r
    | none => findallTwoGo fuel rest

/-- `re.findall(two-time-pattern, s)` — the source's `time_strs`. -/
def findallTwoTime (s : List Char) : List (List Char) :=
  findallTwoGo s.length s

/-! ## The date pattern

`re.findall(r"[J|F|M|A|S|O|N|D][a-z|]{0,8}\s?[a-z]{1,8}\s+\d{1,2}(?!\d)", ...)`
(source lines 83-85).  The leading class contains a literal pipe. -/

/-- The class `[J|F|M|A|S|O|N|D]`. -/
def initCC (c : Char) : Bool :=
  c = 'J' || c = 'F' || c = 'M' || c = 'A' || c = 'S' || c = 'O' ||
  c = 'N' || c = 'D' || c = '|'

/-- The class `[a-z|]`. -/
def lowPipe (c : Char) : Bool := lowerA c || c = '|'

/-- `\d{1,2}(?!\d)` at the head: one or two digits not followed by a
digit.  With three digits available, the two-digit choice fails the
lookahead and the one-digit choice sees a digit too, so there is no
match. -/
def dayDigits : List Char → Option (List Char × List Char)
  | d1 :: d2 :: d3 :: rest =>
    if digitA d1 then
      if digitA d2 then
        if digitA d3 then none else some ([d1, d2], d3 :: rest)
      else some ([d1], d2 :: d3 :: rest)
    else none
  | [d1, d2] =>
    if digitA d1 then
      if digitA d2 then some ([d1, d2], []) else some ([d1], [d2])
    else none
  | [d1] => if digitA d1 then some ([d1], []) else none
  | [] => none

/-- `\s+\d{1,2}(?!\d)` at the head.  `\s+` takes the maximal whitespace
run; a shorter choice puts a whitespace character under `\d`, which
fails, so the maximal run is the only viable one. -/
def wsDay (s : List Char) : Option (List Char × List Char) :=
  let ws := s.takeWhile pyWs
  if ws.isEmpty then none
  else
    match dayDigits (s.dropWhile pyWs) with
    | some (d, r) => some (ws ++ d, r)
    | none => none

/-- `[a-z]{1,8}\s+\d{1,2}(?!\d)` at the head.  The lowercase run is
greedy; any shorter choice exposes a lowercase letter to `\s+`, which
fails, and a run longer than 8 leaves a lowercase successor for every
allowed choice, so the match exists only when the full run has length
1..8. -/
def lowWsDay (s : List Char) : Option (List Char × List Char) :=
  let low := s.takeWhile lowerA
  if low.isEmpty || 8 < low.length then none
  else
    match wsDay (s.dropWhile lowerA) with
    | some (m, r) => some (low ++ m, r)
    | none => none

/-- `\s?[a-z]{1,8}\s+\d{1,2}(?!\d)` at the head.  When the first
character is whitespace, `\s?` must take it: the zero-width alternative
puts `[a-z]` on that whitespace character, which fails. -/
def owlAt : List Char → Option (List Char × List Char)
  | [] => none
  | c :: rest =>
    if pyWs c then
      match lowWsDay rest with
      | some (m, r) => some (c :: m, r)
      | none => none
    else lowWsDay (c :: rest)

/-- `[a-z|]{0,8}` followed by `owlAt`, trying the consumed length from
`j` down to 0 — the genuine backtracking point of the date pattern
(e.g. in "May 5" the run "ay" fails and "a" succeeds). -/
def midTry : Nat → List Char → Option (List Char × List Char)
  | 0, s => owlAt s
  | j + 1, s =>
    if (s.take (j + 1)).length = j + 1 && (s.take (j + 1)).all lowPipe then
      match owlAt (s.drop (j + 1)) with
      | some (m, r) => some (s.take (j + 1) ++ m, r)
      | none => midTry j s
    else midTry j s

/-- The full date pattern at the head of the input. -/
def dateAt : List Char → Option (List Char × List Char)
  | [] => none
  | c :: rest =>
    if initCC c then
      match midTry 8 rest with
      | some (m, r) => some (c :: m, r)
      | none => none
    else none

/-- `re.findall` scan for the date pattern. -/
def findallDateGo : Nat → List Char → List (List Char)
  | 0, _ => []
  | _ + 1, [] => []
  | fuel + 1, c :: rest =>
    match dateAt (c :: rest) with
    | some (m, r) => m :: findallDateGo fuel r
    | none => findallDateGo fuel rest

/-- `re.findall(date-pattern, s)` — the source's `date_strs`. -/
def findallDate (s : List Char) : List (List Char) := findallDateGo s.length s

/-! ## `datetime.strptime(s, "%B %d %Y %I:%M %p")`

CPython's `_strptime` compiles the format to the anchored, IGNORECASE
regex `(?P<B>month-names)\s+(?P<d>3[01]|[12]\d|0[1-9]|[1-9])\s+`
`(?P<Y>\d\d\d\d)\s+(?P<I>1[0-2]|0[1-9]|[1-9]):(?P<M>[0-5]\d)\s+(?P<p>am|pm)`
(literal whitespace in the format becomes `\s+`), requires the match to
cover the whole data string, and then builds a `datetime`, which
validates the day against the month length.  Month names are tried
longest first; since no English month name is a prefix of another, at
most one alternative can match at a position, so alternative order never
matters and no backtracking out of the month group can succeed. -/

/-- The numeric value of an ASCII digit. -/
def dVal (c : Char) : Nat := c.toNat - 48

/-- Case-insensitively strip a (lowercase) literal from the input. -/
def ciDrop : List Char → List Char → Option (List Char)
  | [], s => some s
  | _ :: _, [] => none
  | n :: ns, c :: cs => if c.toLower = n then ciDrop ns cs else none

/-- Full month names with their numbers, in CPython's order (sorted by
length, descending, stable). -/
def monthTbl : List (List Char × Nat) :=
  [("september".toList, 9), ("february".toList, 2), ("november".toList, 11),
   ("december".toList, 12), ("january".toList, 1), ("october".toList, 10),
   ("august".toList, 8), ("april".toList, 4), ("march".toList, 3),
   ("june".toList, 6), ("july".toList, 7), ("may".toList, 5)]

/-- Try the month alternatives in order. -/
def monthFind : List (List Char × Nat) → List Char → Option (Nat × List Char)
  | [], _ => none
  | (n, v) :: tbl, s =>
    match ciDrop n s with
    | some r => some (v, r)
    | none => monthFind tbl s

/-- `%B` at the head of the input. -/
def monthAt (s : List Char) : Option (Nat × List Char) := monthFind monthTbl s

/-- `\s+` at the head (greedy; every following format element starts with
a non-whitespace-compatible atom, so the maximal run is the only viable
choice). -/
def wsSkip : List Char → Option (List Char)
  | c :: rest => if pyWs c then some (rest.dropWhile pyWs) else none
  | [] => none

/-- `%d` = `3[01]|[12]\d|0[1-9]|[1-9]` at the head.  When two digits are
available only a two-digit alternative can survive: the one-digit
fallback would put the second digit under the following `\s+`.  Hence:
two digits match iff their value is 01..31, one digit iff it is 1..9. -/
def dayNum : List Char → Option (Nat × List Char)
  | d1 :: d2 :: rest =>
    if digitA d1 then
      if digitA d2 then
        if 1 ≤ 10 * dVal d1 + dVal d2 && 10 * dVal d1 + dVal d2 ≤ 31 then
          some (10 * dVal d1 + dVal d2, rest)
        else none
      else
        if dVal d1 = 0 then none else some (dVal d1, d2 :: rest)
    else none
  | [d1] =>
    if digitA d1 && dVal d1 != 0 then some (dVal d1, []) else none
  | [] => none

/-- `%Y` = `\d\d\d\d` at the head. -/
def year4 : List Char → Option (Nat × List Char)
  | a :: b :: c :: d :: rest =>
    if digitA a && digitA b && digitA c && digitA d then
      some (1000 * dVal a + 100 * dVal b + 10 * dVal c + dVal d, rest)
    else none
  | _ => none

/-- `%I` = `1[0-2]|0[1-9]|[1-9]` at the head.  As with `%d`, with two
digits available the one-digit fallback would put the second digit under
the following literal `[:]`, so it cannot survive: two digits match iff
they read 10..12 or 01..09. -/
def hourNum : List Char → Option (Nat × List Char)
  | d1 :: d2 :: rest =>
    if digitA d1 then
      if digitA d2 then
        if (10 ≤ 10 * dVal d1 + dVal d2 && 10 * dVal d1 + dVal d2 ≤ 12) ||
            (dVal d1 = 0 && 1 ≤ dVal d2) then
          some (10 * dVal d1 + dVal d2, rest)
        else none
      else
        if dVal d1 = 0 then none else some (dVal d1, d2 :: rest)
    else none
  | [d1] =>
    if digitA d1 && dVal d1 != 0 then some (dVal d1, []) else none
  | [] => none

/-- `%M` = `[0-5]\d|\d` at the head.  With two digits available and the
first in 0..5 only the two-digit alternative can survive: backtracking
to the one-digit alternative would put the second digit under the
following `\s+`.  In every other case the single-digit alternative
matches any one leading digit (a following non-`\s` character is then
rejected by the next stage, exactly as the regex engine rejects it). -/
def minNum : List Char → Option (Nat × List Char)
  | a :: b :: rest =>
    if digitA a then
      if dVal a ≤ 5 && digitA b then some (10 * dVal a + dVal b, rest)
      else some (dVal a, b :: rest)
    else none
  | [a] => if digitA a then some (dVal a, []) else none
  | [] => none

/-- `%p` = `am|pm`, case-insensitive; `true` means pm. -/
def ampmAt : List Char → Option (Bool × List Char)
  | a :: m :: rest =>
    if a.toLower = 'a' && m.toLower = 'm' then some (false, rest)
    else if a.toLower = 'p' && m.toLower = 'm' then some (true, rest)
    else none
  | _ => none

/-- The date-part stages `%B \s+ %d \s+ %Y` of the format, returning
(month, day, year, rest). -/
def dateStages (s : List Char) : Option ((Nat × Nat × Nat) × List Char) :=
  match monthAt s with
  | none => none
  | some (mo, r1) =>
    match wsSkip r1 with
    | none => none
    | some r2 =>
      match dayNum r2 with
      | none => none
      | some (da, r3) =>
        match wsSkip r3 with
        | none => none
        | some r4 =>
          match year4 r4 with
          | some (ye, r5) => some ((mo, da, ye), r5)
          | none => none

/-- The time-part stages `\s+ %I : %M \s+ %p`, returning
(12-hour value, minute, pm flag, rest). -/
def timeStages (s : List Char) : Option ((Nat × Nat × Bool) × List Char) :=
  match wsSkip s with
  | none => none
  | some r1 =>
    match hourNum r1 with
    | none => none
    | some (h, r2) =>
      match r2 with
      | ':' :: r3 =>
        match minNum r3 with
        | none => none
        | some (mi, r4) =>
          match wsSkip r4 with
          | none => none
          | some r5 =>
            match ampmAt r5 with
            | some (pm, r6) => some ((h, mi, pm), r6)
            | none => none
      | _ => none

/-- A parsed naive timestamp. -/
structure DT where
  year : Nat
  month : Nat
  day : Nat
  hour : Nat
  minute : Nat
deriving DecidableEq, Repr

/-- Gregorian leap year, as `datetime` uses. -/
def isLeap (y : Nat) : Bool := y % 4 = 0 && (y % 100 != 0 || y % 400 = 0)

/-- Length of a month, as `datetime` validates the day against. -/
def daysInMonth (m y : Nat) : Nat :=
  if m = 2 then (if isLeap y then 29 else 28)
  else if m = 4 || m = 6 || m = 9 || m = 11 then 30
  else 31

/-- 12-hour to 24-hour conversion performed by `_strptime` under `%I`
with `%p`. -/
def to24 (h : Nat) (pm : Bool) : Nat :=
  if pm then (if h = 12 then 12 else h + 12)
  else (if h = 12 then 0 else h)

/-- `datetime.strptime(s, "%B %d %Y %I:%M %p")`: the staged format match
anchored at the start, the whole-string check ("unconverted data
remains" otherwise), and the `datetime(...)` constructor validation
(`MINYEAR <= year` and `day <= days in month`; the other components are
within range by construction of the patterns). -/
def strpFull (s : List Char) : Option DT :=
  match dateStages s with
  | none => none
  | some ((mo, da, ye), r) =>
    match timeStages r with
    | none => none
    | some ((h, mi, pm), rest) =>
      if rest.isEmpty then
        if 1 ≤ ye && da ≤ daysInMonth mo ye then
          some ⟨ye, mo, da, to24 h pm, mi⟩
        else none
      else none

/-! ## The Datetime Resolver and the schedule pipeline -/

/-- `"{} {} {}".format(date_str, year_str, time_str)`. -/
def fmt3 (d y t : List Char) : List Char := d ++ ' ' :: (y ++ ' ' :: t)

/-- The probe sentinel time used by the resolver (source line 94). -/
def probeTime : List Char := "10:30 am".toList

/-- `date_str.replace(" ", "", 1)`: remove the first space character. -/
def removeFirstSpace : List Char → List Char
  | [] => []
  | c :: rest => if c = ' ' then rest else c :: removeFirstSpace rest

/-- One loop iteration's date correction (source lines 92-97): probe
with the sentinel time; on failure remove the first space. -/
def correctDate (d y : List Char) : List Char :=
  if (strpFull (fmt3 d y probeTime)).isSome then d else removeFirstSpace d

/-- The Datetime Resolver as exercised by the loop: corrected date,
then `_parse_datetime` (source lines 146-150). -/
def resolveDate (d y t : List Char) : Option DT :=
  strpFull (fmt3 (correctDate d y) y t)

/-- One meeting's resolved window. -/
structure Entry where
  startT : DT
  endT : DT
deriving DecidableEq, Repr

/-- `re.search(r"\d{4}", text)`: first four-consecutive-digit run. -/
def search4 : List Char → Option (List Char)
  | a :: b :: c :: d :: rest =>
    if digitA a && digitA b && digitA c && digitA d then some [a, b, c, d]
    else search4 (b :: c :: d :: rest)
  | _ => none

/-- Does the needle occur at the head of the haystack? -/
def startsWithL : List Char → List Char → Bool
  | [], _ => true
  | _ :: _, [] => false
  | n :: ns, c :: cs => n = c && startsWithL ns cs

/-- Python's `needle in haystack` substring test. -/
def hasSub (needle : List Char) : List Char → Bool
  | [] => needle.isEmpty
  | c :: rest => startsWithL needle (c :: rest) || hasSub needle rest

/-- `"440" in text` (source line 182). -/
def has440 (s : List Char) : Bool := hasSub "440".toList s

/-- The fatal alignment message (source line 88). -/
def alignMsg : List Char :=
  "Not all dates can be matched with start and end time".toList

/-- One iteration of the extraction loop (source lines 91-104): date
correction, tuple indexing `time_str[0]`/`time_str[1]` (modelled by
`get?`; an out-of-range index raises), and the two strict parses. -/
def entryOf (d y : List Char) (t : List (List Char)) : Except (List Char) Entry :=
  match t.get? 0, t.get? 1 with
  | some st, some et =>
    match strpFull (fmt3 (correctDate d y) y st),
        strpFull (fmt3 (correctDate d y) y et) with
    | some s, some e => Except.ok (Entry.mk s e)
    | _, _ => Except.error "ValueError: time data does not match format".toList
  | _, _ => Except.error "IndexError: tuple index out of range".toList

/-- The extraction loop (source lines 90-104): `for i in
range(len(time_strs))`, indexing `date_strs[i]`.  Errors abort the loop,
keeping the entries already appended to `self.meeting_dates`. -/
def schedLoop : List (List Char) → List (List (List Char)) → List Char →
    (List Entry × Option (List Char))
  | _, [], _ => ([], none)
  | d :: ds, t :: ts, y =>
    match entryOf d y t with
    | Except.ok en =>
      let more := schedLoop ds ts y
      (en :: more.1, more.2)
    | Except.error m => ([], some m)
  | [], _ :: _, _ => ([], some "IndexError: list index out of range".toList)

/-- `_parse_schedule_pdf` on already-normalized text (source lines
72-104): year search (`.group()` on a failed search raises
AttributeError), location canary, the two findall extractions, the
alignment guard, and the loop. -/
def runSchedulePdf (text : List Char) :
    (List Entry × Option (List Char)) :=
  match search4 text with
  | none => ([], some "AttributeError: NoneType has no attribute group".toList)
  | some y =>
    if !has440 text then
      ([], some "ValueError: Meeting location has changed".toList)
    else
      let timeTuples := (findallTwoTime text).map findallTime
      let dateStrs := findallDate text
      if timeTuples.length != dateStrs.length then ([], some alignMsg)
      else schedLoop dateStrs timeTuples y

/-! ## Location validation, classification, and the documents page -/

/-- `_validate_location` (source lines 181-183): `some msg` models the
raised `ValueError`, `none` a silent pass. -/
def validateLocation (text : List Char) : Option (List Char) :=
  if !has440 text then some "ValueError: Meeting location has changed".toList
  else none

/-- The classification constants from `city_scrapers_core.constants`. -/
inductive Classification where
  | board
  | committee
  | notClassified
deriving DecidableEq, Repr

/-- `_parse_classification` (source lines 136-144). -/
def parseClassification (title : List Char) : Classification :=
  if hasSub "Board".toList title then Classification.board
  else if hasSub "Committee".toList title then Classification.committee
  else Classification.notClassified

/-- One `div.meeting-min_inner-wrapper` row of the documents page: its
`p::text` date, `h3::text` heading, and `a/@href` link, as handed over
by the HTML selection (out of scope per the spec). -/
structure Row where
  dateText : List Char
  heading : List Char
  href : List Char

/-- Python `str.strip()` on the whitespace set used here. -/
def stripWs (s : List Char) : List Char :=
  ((s.dropWhile pyWs).reverse.dropWhile pyWs).reverse

/-- `date.split('/')`. -/
def splitSlash : List Char → List (List Char)
  | [] => [[]]
  | c :: rest =>
    if c = '/' then [] :: splitSlash rest
    else
      match splitSlash rest with
      | g :: gs => (c :: g) :: gs
      | [] => [[c]]

/-- Python `int(...)` on the strings occurring here: optional surrounding
whitespace around a nonempty digit run.  (Signs are omitted: a negative
number would make the `datetime` constructor raise just as a parse
failure does, and both are modelled as `none`.) -/
def toIntPy (s : List Char) : Option Nat :=
  let t := stripWs s
  if t.isEmpty || !(t.all digitA) then none
  else some (t.foldl (fun acc c => 10 * acc + dVal c) 0)

/-- The `datetime(year, month, day)` constructor validation. -/
def validYMD (y m d : Nat) : Bool :=
  1 ≤ y && y ≤ 9999 && 1 ≤ m && m ≤ 12 && 1 ≤ d && d ≤ daysInMonth m y

/-- A row's `(month, year)` key (source lines 158-160 and 173-175):
strip the date text, split on `/`, convert the first three pieces with
`int`, build a `datetime` — any failure raises, modelled as `none`. -/
def rowKey (r : Row) : Option (Nat × Nat) :=
  let parts := splitSlash (stripWs r.dateText)
  match parts.get? 0, parts.get? 1, parts.get? 2 with
  | some ms, some ds, some ys =>
    match toIntPy ms, toIntPy ds, toIntPy ys with
    | some m, some d, some y => if validYMD y m d then some (m, y) else none
    | _, _, _ => none
  | _, _, _ => none

/-- A link record `{"title": "Minutes", "href": ...}`. -/
structure LinkRec where
  title : List Char
  href : List Char
deriving DecidableEq, Repr

/-- Association-list model of the two Python dicts, keyed by
`(month, year)`. -/
abbrev TitleMap : Type := List ((Nat × Nat) × List Char)

abbrev LinkMap : Type := List ((Nat × Nat) × List LinkRec)

/-- Dict assignment `d[k] = v`: overwrite in place, else append. -/
def setKey (k : Nat × Nat) (v : List Char) : TitleMap → TitleMap
  | [] => [(k, v)]
  | (k0, v0) :: rest =>
    if k0 = k then (k, v) :: rest else (k0, v0) :: setKey k v rest

/-- `defaultdict(list)` append `d[k].append(v)`. -/
def pushKey (k : Nat × Nat) (v : LinkRec) : LinkMap → LinkMap
  | [] => [(k, [v])]
  | (k0, vs) :: rest =>
    if k0 = k then (k0, vs ++ [v]) :: rest else (k0, vs) :: pushKey k v rest

/-- Dict lookup for the title map; a missing key yields the
`defaultdict(list)` default, which is falsy exactly like the empty
string and is modelled as the empty character list. -/
def titleLookup (m : TitleMap) (k : Nat × Nat) : List Char :=
  match m.find? (fun e => e.1 = k) with
  | some e => e.2
  | none => []

/-- Dict lookup for the link map; a missing key yields `[]`. -/
def linkLookup (m : LinkMap) (k : Nat × Nat) : List LinkRec :=
  match m.find? (fun e => e.1 = k) with
  | some e => e.2
  | none => []

/-- `_parse_title_map` (source lines 167-179): left-to-right over the
rows, overwriting the key's entry with the stripped heading; a row whose
date fails to parse aborts the whole build (`none`). -/
def buildTitleMapGo (acc : TitleMap) : List Row → Option TitleMap
  | [] => some acc
  | r :: rows =>
    match rowKey r with
    | some k => buildTitleMapGo (setKey k (stripWs r.heading) acc) rows
    | none => none

def buildTitleMap (rows : List Row) : Option TitleMap := buildTitleMapGo [] rows

/-- `_parse_link_map` (source lines 152-165): appends a
`{"title": "Minutes", "href": link}` record at the row's key. -/
def buildLinkMapGo (acc : LinkMap) : List Row → Option LinkMap
  | [] => some acc
  | r :: rows =>
    match rowKey r with
    | some k => buildLinkMapGo (pushKey k (LinkRec.mk "Minutes".toList r.href) acc) rows
    | none => none

def buildLinkMap (rows : List Row) : Option LinkMap := buildLinkMapGo [] rows

/-- The fallback agency title (source line 134). -/
def agencyName : List Char := "Detroit Employment Solutions Corporation".toList

/-- `_parse_title` (source lines 130-134). -/
def parseTitle (tm : TitleMap) (e : Entry) : List Char :=
  let t := titleLookup tm (e.startT.month, e.startT.year)
  if !t.isEmpty then t else agencyName

/-- The assembled meeting fields this verification tracks.  The
remaining fields of the Python `Meeting` are constants
(`description=""`, `all_day=False`, `time_notes=""`, the static location
and source), and `status`/`id` are opaque deterministic derivations by
an external collaborator (spec section 3); none of them participate in
the claims. -/
structure MeetingRec where
  title : List Char
  classification : Classification
  startT : DT
  endT : DT
  links : List LinkRec
deriving DecidableEq, Repr

/-- The body of `_parse_documents` for a single schedule entry (source
lines 110-123): both dict lookups never raise (`defaultdict`), so each
entry always yields a record. -/
def assembleMeeting (lm : LinkMap) (tm : TitleMap) (e : Entry) : MeetingRec :=
  let t := parseTitle tm e
  MeetingRec.mk t (parseClassification t) e.startT e.endT
    (linkLookup lm (e.startT.month, e.startT.year))

/-- `_parse_documents`' yielded sequence (source lines 106-128). -/
def parseDocuments (entries : List Entry) (lm : LinkMap) (tm : TitleMap) :
    List MeetingRec :=
  entries.map (assembleMeeting lm tm)

/-! ## Substring lemmas -/

theorem startsWithL_append_left (a b s : List Char)
    (h : startsWithL (a ++ b) s = true) : startsWithL a s = true := by
  induction a generalizing s with
  | nil => rfl
  | cons c a ih =>
    cases s with
    | nil => simp [startsWithL] at h
    | cons c2 s2 =>
      simp only [List.cons_append, startsWithL, Bool.and_eq_true] at h ⊢
      exact ⟨h.1, ih s2 h.2⟩

theorem hasSub_append_left (a b s : List Char)
    (h : hasSub (a ++ b) s = true) : hasSub a s = true := by
  induction s with
  | nil =>
    simp only [hasSub, List.isEmpty_eq_true, List.append_eq_nil] at h ⊢
    exact h.1
  | cons c rest ih =>
    simp only [hasSub, Bool.or_eq_true] at h ⊢
    rcases h with h | h
    · exact Or.inl (startsWithL_append_left _ _ _ h)
    · exact Or.inr (ih h)

/-! ## Claim theorems: C5, C6, C4 -/

/-- C5: for every title string, classification returns the board category
when "Board" occurs as a substring, otherwise the committee category when
"Committee" occurs, otherwise the unclassified category; in particular a
title containing both "Board" and "Committee" is classified as board.
The checks are case-sensitive. -/
theorem c5_classification (t : List Char) :
    (hasSub "Board".toList t = true →
      parseClassification t = Classification.board) ∧
    (hasSub "Board".toList t = false → hasSub "Committee".toList t = true →
      parseClassification t = Classification.committee) ∧
    (hasSub "Board".toList t = false → hasSub "Committee".toList t = false →
      parseClassification t = Classification.notClassified) ∧
    (hasSub "Board".toList t = true → hasSub "Committee".toList t = true →
      parseClassification t = Classification.board) := by
  refine ⟨fun h => ?_, fun h1 h2 => ?_, fun h1 h2 => ?_, fun h hc => ?_⟩ <;>
    simp_all [parseClassification]

/-- Witness for C5 at the four concrete titles of the spec. -/
theorem c5_classification_witness :
    parseClassification "Board of Directors Meeting".toList =
      Classification.board ∧
    parseClassification "Finance Committee".toList =
      Classification.committee ∧
    parseClassification "Staff Update".toList =
      Classification.notClassified ∧
    parseClassification "Board Committee Joint".toList =
      Classification.board :=
  ⟨(c5_classification _).1 (by decide),
   (c5_classification _).2.1 (by decide) (by decide),
   (c5_classification _).2.2.1 (by decide) (by decide),
   (c5_classification _).2.2.2 (by decide) (by decide)⟩

/-- C6: location validation passes (raises nothing) on every text
containing "440 E. Congress", and raises the
"Meeting location has changed" ValueError on every text containing no
"440" substring. -/
theorem c6_location (t : List Char) :
    (hasSub "440 E. Congress".toList t = true → validateLocation t = none) ∧
    (hasSub "440".toList t = false →
      validateLocation t = some "ValueError: Meeting location has changed".toList) := by
  constructor
  · intro h
    have h440 : hasSub "440".toList t = true := by
      have hsplit : "440 E. Congress".toList = "440".toList ++ " E. Congress".toList := by
        decide
      exact hasSub_append_left _ _ _ (hsplit ▸ h)
    simp_all [validateLocation, has440]
  · intro h
    simp_all [validateLocation, has440]

/-- Witness for C6 at the real address and at an address-free text. -/
theorem c6_location_witness :
    validateLocation "440 E. Congress, Detroit, MI 48226".toList = none ∧
    validateLocation "1 Main St".toList =
      some "ValueError: Meeting location has changed".toList :=
  ⟨(c6_location _).1 (by decide), (c6_location _).2 (by decide)⟩

/-- C4: a schedule entry whose (month, year) key is missing from both the
link map and the title map still yields a meeting record (the
`defaultdict` lookups cannot raise, and the embedding is total), with an
empty link list and the fallback agency title. -/
theorem c4_missing_key (lm : LinkMap) (tm : TitleMap) (e : Entry)
    (hl : lm.find? (fun x => x.1 = (e.startT.month, e.startT.year)) = none)
    (ht : tm.find? (fun x => x.1 = (e.startT.month, e.startT.year)) = none) :
    (assembleMeeting lm tm e).links = [] ∧
    (assembleMeeting lm tm e).title = agencyName := by
  constructor
  · simp [assembleMeeting, linkLookup, hl]
  · simp [assembleMeeting, parseTitle, titleLookup, ht]

/-- Witness for C4: empty maps miss every key. -/
theorem c4_missing_key_witness :
    (assembleMeeting [] []
      (Entry.mk ⟨2022, 7, 14, 13, 0⟩ ⟨2022, 7, 14, 14, 30⟩)).links = [] ∧
    (assembleMeeting [] []
      (Entry.mk ⟨2022, 7, 14, 13, 0⟩ ⟨2022, 7, 14, 14, 30⟩)).title = agencyName :=
  c4_missing_key [] [] (Entry.mk ⟨2022, 7, 14, 13, 0⟩ ⟨2022, 7, 14, 14, 30⟩)
    (by decide) (by decide)

/-! ## C8: the title map takes the last row for a duplicated key -/

/-- The (key, stripped heading) pairs the title-map builder assigns, in
row order. -/
def assignedPairs (rows : List Row) : List ((Nat × Nat) × List Char) :=
  rows.filterMap fun r => (rowKey r).map fun kk => (kk, stripWs r.heading)

/-- The heading of the last row assigned to a key; the `defaultdict`
default (empty) when no row has the key. -/
def lastTitleFor (rows : List Row) (k : Nat × Nat) : List Char :=
  match ((assignedPairs rows).filter fun p => decide (p.1 = k)).getLast? with
  | some p => p.2
  | none => []

theorem titleLookup_setKey (acc : TitleMap) (kk k : Nat × Nat) (v : List Char) :
    titleLookup (setKey kk v acc) k = if kk = k then v else titleLookup acc k := by
  induction acc with
  | nil => by_cases h : kk = k <;> simp [setKey, titleLookup, List.find?, h]
  | cons e rest ih =>
    obtain ⟨k0, v0⟩ := e
    by_cases h1 : k0 = kk
    · subst h1
      by_cases h2 : k0 = k <;> simp [setKey, titleLookup, List.find?, h2]
    · by_cases h2 : k0 = k
      · subst h2
        have hne : ¬kk = k0 := fun hh => h1 hh.symm
        simp [setKey, titleLookup, List.find?, h1, hne]
      · simp only [setKey, if_neg h1, titleLookup, List.find?, h2,
          decide_eq_true_eq, decide_False] at *
        simpa [titleLookup] using ih

theorem buildGo_lookup (rows : List Row) : ∀ (acc tm : TitleMap) (k : Nat × Nat),
    buildTitleMapGo acc rows = some tm →
    titleLookup tm k =
      (match ((assignedPairs rows).filter fun p => decide (p.1 = k)).getLast? with
       | some p => p.2
       | none => titleLookup acc k) := by
  induction rows with
  | nil =>
    intro acc tm k h
    simp only [buildTitleMapGo, Option.some_inj] at h
    subst h
    simp [assignedPairs]
  | cons r rows ih =>
    intro acc tm k h
    simp only [buildTitleMapGo] at h
    cases hr : rowKey r with
    | none => rw [hr] at h; cases h
    | some kk =>
      rw [hr] at h
      have ih' := ih (setKey kk (stripWs r.heading) acc) tm k h
      have hap : assignedPairs (r :: rows) =
          (kk, stripWs r.heading) :: assignedPairs rows := by
        simp [assignedPairs, hr]
      rw [hap]
      by_cases hk : kk = k
      · subst hk
        rw [List.filter_cons_of_pos (by simp)]
        rw [List.getLast?_cons]
        cases hl : ((assignedPairs rows).filter fun p => decide (p.1 = kk)).getLast? with
        | some q => rw [hl] at ih'; simpa using ih'
        | none =>
          rw [hl] at ih'
          simp only [Option.getD_none]
          rw [ih', titleLookup_setKey]
          simp
      · rw [List.filter_cons_of_neg (by simp [hk])]
        cases hl : ((assignedPairs rows).filter fun p => decide (p.1 = k)).getLast? with
        | some q => rw [hl] at ih'; simpa [hl] using ih'
        | none =>
          rw [hl] at ih'
          rw [ih', titleLookup_setKey, if_neg hk]

/-- C8: the built title map associates to every key one title string,
namely the stripped heading of the *last* row (in document order) whose
date has that (month, year) key — later rows overwrite earlier ones —
and the empty default when no row has the key. -/
theorem c8_title_last_wins (rows : List Row) (tm : TitleMap) (k : Nat × Nat)
    (h : buildTitleMap rows = some tm) :
    titleLookup tm k = lastTitleFor rows k := by
  have hg := buildGo_lookup rows [] tm k h
  rw [lastTitleFor]
  cases hl : ((assignedPairs rows).filter fun p => decide (p.1 = k)).getLast? with
  | some q => rw [hl] at hg; simpa using hg
  | none => rw [hl] at hg; simpa [titleLookup] using hg

/-- Witness for C8 on two rows sharing the key (6, 2022): the second
row's heading wins. -/
theorem c8_title_last_wins_witness :
    titleLookup [((6, 2022), "Special".toList)] (6, 2022) =
      lastTitleFor [Row.mk "6/9/2022".toList " Board Meeting ".toList "/a".toList,
        Row.mk "6/20/2022".toList "Special".toList "/b".toList] (6, 2022) :=
  c8_title_last_wins _ _ _ (by decide)

/-! ## C2: normalizer idempotence -/

theorem mem_squashGo (s : List Char) :
    ∀ (b : Bool) (c : Char), c ∈ squashGo b s → c = ' ' ∨ pyWs c = false := by
  induction s with
  | nil => intro b c h; simp [squashGo] at h
  | cons a rest ih =>
    intro b c h
    by_cases ha : pyWs a = true
    · cases b with
      | true =>
        simp only [squashGo, ha, if_pos] at h
        exact ih true c h
      | false =>
        simp only [squashGo, ha, if_pos] at h
        rcases List.mem_cons.mp h with h | h
        · exact Or.inl h
        · exact ih true c h
    · simp only [squashGo, ha, if_neg, Bool.false_eq_true, if_false] at h
      rcases List.mem_cons.mp h with h | h
      · subst h; exact Or.inr (by simpa using ha)
      · exact ih false c h

theorem nl_not_mem_squashWs (s : List Char) : ('\n' : Char) ∉ squashWs s := by
  intro h
  rcases mem_squashGo s false '\n' h with h | h
  · exact absurd h (by decide)
  · exact absurd h (by decide)

theorem dropNlGo_id (s : List Char) (h : ('\n' : Char) ∉ s) :
    ∀ p, dropNlGo p s = s := by
  induction s with
  | nil => intro p; rfl
  | cons c rest ih =>
    intro p
    have hc : ¬c = '\n' := fun hh => h (hh ▸ List.mem_cons_self c rest)
    have hr : ('\n' : Char) ∉ rest := fun hh => h (List.mem_cons_of_mem c hh)
    simp [dropNlGo, hc, ih hr]

theorem dropNlAfter_id (s : List Char) (h : ('\n' : Char) ∉ s) :
    dropNlAfter s = s := by
  cases s with
  | nil => rfl
  | cons c rest =>
    have hr : ('\n' : Char) ∉ rest := fun hh => h (List.mem_cons_of_mem c hh)
    simp [dropNlAfter, dropNlGo_id rest hr]

theorem nlToSpace_id (s : List Char) (h : ('\n' : Char) ∉ s) :
    nlToSpace s = s := by
  induction s with
  | nil => rfl
  | cons c rest ih =>
    have hc : ¬c = '\n' := fun hh => h (hh ▸ List.mem_cons_self c rest)
    have hr : ('\n' : Char) ∉ rest := fun hh => h (List.mem_cons_of_mem c hh)
    simp [nlToSpace, hc]
    simpa [nlToSpace] using ih hr

theorem squashGo_idem (s : List Char) :
    ∀ b, squashGo b (squashGo b s) = squashGo b s := by
  induction s with
  | nil => intro b; rfl
  | cons c rest ih =>
    intro b
    by_cases hc : pyWs c = true
    · cases b with
      | true => simpa [squashGo, hc] using ih true
      | false =>
        have hsp : pyWs ' ' = true := by decide
        simp [squashGo, hc, hsp, ih true]
    · simp [squashGo, hc, ih false]

/-- C2 counterexample: the full normalizer is not idempotent.  On
"AAAAAA" the duplicate-collapse pass rewrites the first four characters
and resumes after them, leaving "AAAA", which a second normalization
collapses further to "AA". -/
theorem c2_counterexample :
    normText "AAAAAA".toList = "AAAA".toList ∧
    normText (normText "AAAAAA".toList) = "AA".toList ∧
    normText (normText "AAAAAA".toList) ≠ normText "AAAAAA".toList := by
  decide

/-- C2 amended: the normalizer is idempotent on every input whose
normalized form is a fixed point of the duplicate-collapse pass (a
single pass can leave residual duplicated two-character runs, as the
counterexample shows; the remaining three passes are always stable on
normalized output). -/
theorem c2_normalizer_amended (s : List Char)
    (h : collapseDup (normText s) = normText s) :
    normText (normText s) = normText s := by
  have hnl : ('\n' : Char) ∉ normText s := nl_not_mem_squashWs _
  show squashWs (nlToSpace (dropNlAfter (collapseDup (normText s)))) = normText s
  rw [h, dropNlAfter_id _ hnl, nlToSpace_id _ hnl]
  exact squashGo_idem _ false

/-- Witness for the amended C2 at a concrete already-collapse-stable
input. -/
theorem c2_normalizer_amended_witness :
    normText (normText "ab  c".toList) = normText "ab  c".toList :=
  c2_normalizer_amended _ (by decide)

/-! ## C3: the resolver on "J uly 9" -/

/-- C3 counterexample: the resolver succeeds on "J uly 9" (probe fails,
the first space is removed giving "July 9", which parses), but on
date-string "July9" it produces no timestamp at all: the compiled
strptime format demands at least one whitespace character between the
month name and the day, and "July9" has no space for the correction step
to remove.  So the resolver's result on "J uly 9" cannot equal a
timestamp produced for "July9". -/
theorem c3_counterexample :
    resolveDate "J uly 9".toList "2022".toList "9:00 am".toList =
      some ⟨2022, 7, 9, 9, 0⟩ ∧
    resolveDate "July9".toList "2022".toList "9:00 am".toList = none := by
  decide

/-- C3 amended: for every clock-time string on which the strict parse of
"July 9 2022 (time)" succeeds, the resolver succeeds on date-string
"J uly 9" (year "2022") and produces the same timestamp as it produces
for date-string "July 9". -/
theorem c3_resolver_amended (t : List Char) (r : DT)
    (h : strpFull (fmt3 "July 9".toList "2022".toList t) = some r) :
    resolveDate "J uly 9".toList "2022".toList t = some r ∧
    resolveDate "July 9".toList "2022".toList t = some r := by
  have h1 : (strpFull (fmt3 "J uly 9".toList "2022".toList probeTime)).isSome = false := by
    decide
  have h2 : (strpFull (fmt3 "July 9".toList "2022".toList probeTime)).isSome = true := by
    decide
  have h3 : removeFirstSpace "J uly 9".toList = "July 9".toList := by decide
  constructor <;> simp_all [resolveDate, correctDate]

/-- Witness for the amended C3 at time "9:5 am", whose single-digit
minute exercises the `\d` alternative of `%M`. -/
theorem c3_resolver_amended_witness :
    resolveDate "J uly 9".toList "2022".toList "9:5 am".toList =
      some ⟨2022, 7, 9, 9, 5⟩ ∧
    resolveDate "July 9".toList "2022".toList "9:5 am".toList =
      some ⟨2022, 7, 9, 9, 5⟩ :=
  c3_resolver_amended _ _ (by decide)

/-! ## C1: the alignment guard -/

/-- The per-iteration errors are never the alignment message. -/
theorem entryOf_error_ne (d y : List Char) (t : List (List Char))
    (m : List Char) (h : entryOf d y t = Except.error m) : m ≠ alignMsg := by
  unfold entryOf at h
  split at h
  · split at h
    · cases h
    · cases h; decide
  · cases h; decide

theorem schedLoop_no_align (ds : List (List Char)) :
    ∀ (ts : List (List (List Char))) (y : List Char),
      (schedLoop ds ts y).2 ≠ some alignMsg := by
  induction ds with
  | nil =>
    intro ts y
    cases ts with
    | nil => simp [schedLoop]
    | cons t ts => simp only [schedLoop]; decide
  | cons d ds ih =>
    intro ts y
    cases ts with
    | nil => simp [schedLoop]
    | cons t ts =>
      cases he : entryOf d y t with
      | ok en =>
        simpa [schedLoop, he] using ih ts y
      | error m =>
        simpa [schedLoop, he] using entryOf_error_ne d y t m he

theorem schedLoop_len (ts : List (List (List Char))) :
    ∀ (ds : List (List Char)) (y : List Char),
      (schedLoop ds ts y).2 = none →
      (schedLoop ds ts y).1.length = ts.length := by
  induction ts with
  | nil => intro ds y _; cases ds <;> simp [schedLoop]
  | cons t ts ih =>
    intro ds y h
    cases ds with
    | nil => simp [schedLoop] at h
    | cons d ds =>
      cases he : entryOf d y t with
      | ok en =>
        simp only [schedLoop, he] at h ⊢
        simp only [List.length_cons]
        rw [ih ds y h]
      | error m => simp [schedLoop, he] at h

/-- C1 counterexample: a normalized text (a fixed point of the
normalizer) on which the date-string count equals the time-pair count
(both 1), yet extraction raises a ValueError (the date "Janx 5" survives
extraction but fails strict parsing even after the space-removal
correction) and appends zero entries instead of one per index. -/
theorem c1_counterexample :
    normText "440 2022 Janx 5 9:00 am to 10:00 am".toList =
      "440 2022 Janx 5 9:00 am to 10:00 am".toList ∧
    ((findallTwoTime "440 2022 Janx 5 9:00 am to 10:00 am".toList).map
      findallTime).length =
      (findallDate "440 2022 Janx 5 9:00 am to 10:00 am".toList).length ∧
    (findallDate "440 2022 Janx 5 9:00 am to 10:00 am".toList).length = 1 ∧
    (runSchedulePdf "440 2022 Janx 5 9:00 am to 10:00 am".toList).1 = [] ∧
    (runSchedulePdf "440 2022 Janx 5 9:00 am to 10:00 am".toList).2.isSome
      = true := by
  decide

/-- C1 amended: on a normalized text whose year search and location
canary pass, (i) a date-count/time-pair-count mismatch raises the fatal
alignment ValueError with no entry appended, and (ii) with equal counts
the alignment error is never raised, and when the per-index datetime
resolutions all succeed (no error at all), exactly one entry per index
is appended.  (A per-index resolution failure — the counterexample —
still aborts with a different ValueError, keeping only the entries
appended before it.) -/
theorem c1_alignment_amended (text y : List Char)
    (hy : search4 text = some y) (hloc : has440 text = true) :
    (((findallTwoTime text).map findallTime).length ≠ (findallDate text).length →
      runSchedulePdf text = ([], some alignMsg)) ∧
    (((findallTwoTime text).map findallTime).length = (findallDate text).length →
      (runSchedulePdf text).2 ≠ some alignMsg ∧
      ((runSchedulePdf text).2 = none →
        (runSchedulePdf text).1.length = (findallDate text).length)) := by
  constructor
  · intro hne
    have hne' : (findallTwoTime text).length ≠ (findallDate text).length := by
      simpa using hne
    have hb : ((findallTwoTime text).length != (findallDate text).length) = true := by
      simpa using hne'
    simp [runSchedulePdf, hy, hloc, hb]
  · intro heq
    have heq' : (findallTwoTime text).length = (findallDate text).length := by
      simpa using heq
    have hb : ((findallTwoTime text).length != (findallDate text).length) = false := by
      simp [heq']
    have hrun : runSchedulePdf text =
        schedLoop (findallDate text) ((findallTwoTime text).map findallTime) y := by
      simp [runSchedulePdf, hy, hloc, hb]
    rw [hrun]
    refine ⟨schedLoop_no_align _ _ _, fun hnone => ?_⟩
    rw [schedLoop_len _ _ _ hnone]
    simpa using heq'

/-- Witness for the amended C1 at a concrete well-formed text with one
date and one time pair. -/
theorem c1_alignment_amended_witness :
    (((findallTwoTime "440 2022 May 2 9:00 pm 7:00 am".toList).map
        findallTime).length ≠
      (findallDate "440 2022 May 2 9:00 pm 7:00 am".toList).length →
      runSchedulePdf "440 2022 May 2 9:00 pm 7:00 am".toList =
        ([], some alignMsg)) ∧
    (((findallTwoTime "440 2022 May 2 9:00 pm 7:00 am".toList).map
        findallTime).length =
      (findallDate "440 2022 May 2 9:00 pm 7:00 am".toList).length →
      (runSchedulePdf "440 2022 May 2 9:00 pm 7:00 am".toList).2 ≠
        some alignMsg ∧
      ((runSchedulePdf "440 2022 May 2 9:00 pm 7:00 am".toList).2 = none →
        (runSchedulePdf "440 2022 May 2 9:00 pm 7:00 am".toList).1.length =
          (findallDate "440 2022 May 2 9:00 pm 7:00 am".toList).length)) :=
  c1_alignment_amended _ "2022".toList (by decide) (by decide)

/-! ## C7: which substrings the date pattern extracts -/

/-- The candidate-date extraction exactly as claim C7 describes it
(refinement comparison definition, following the claim's words, not the
source): a capitalized word of 1-9 letters, optionally containing a
literal pipe character, followed by whitespace and a 1-2 digit day number
not followed by another digit — i.e. matches of
`[A-Z][a-z|]{0,8}\s+\d{1,2}(?!\d)`.  The word run is greedy and
deterministic for the same reason as in `lowWsDay`. -/
def specDateAt : List Char → Option (List Char × List Char)
  | [] => none
  | c :: rest =>
    if upperA c then
      if 8 < (rest.takeWhile lowPipe).length then none
      else
        match wsDay (rest.dropWhile lowPipe) with
        | some (m, r) => some (c :: (rest.takeWhile lowPipe ++ m), r)
        | none => none
    else none

/-- `findall` scan for the claim's pattern. -/
def specFindDateGo : Nat → List Char → List (List Char)
  | 0, _ => []
  | _ + 1, [] => []
  | fuel + 1, c :: rest =>
    match specDateAt (c :: rest) with
    | some (m, r) => m :: specFindDateGo fuel r
    | none => specFindDateGo fuel rest

def specFindDate (s : List Char) : List (List Char) :=
  specFindDateGo s.length s

/-- C7 counterexample: on the normalized text "J uly 9" (the spec's own
flagship artifact) the code's pattern extracts the candidate "J uly 9" —
its `\s?` admits a space inside the word and its leading class is
restricted to month initials — while the claim's described pattern
extracts nothing; on "Xay 5" the claim's pattern extracts "Xay 5" while
the code extracts nothing. -/
theorem c7_counterexample :
    specFindDate "J uly 9".toList = [] ∧
    findallDate "J uly 9".toList = ["J uly 9".toList] ∧
    normText "J uly 9".toList = "J uly 9".toList ∧
    specFindDate "Xay 5".toList = ["Xay 5".toList] ∧
    findallDate "Xay 5".toList = [] ∧
    normText "Xay 5".toList = "Xay 5".toList := by
  decide

theorem dayDigits_shape (s d r : List Char) (h : dayDigits s = some (d, r)) :
    d ≠ [] ∧ d.length ≤ 2 ∧ d.all digitA = true ∧ s = d ++ r := by
  unfold dayDigits at h
  split at h <;> try split_ifs at h
  all_goals simp at h
  all_goals obtain ⟨rfl, rfl⟩ := h
  all_goals simp_all

theorem wsDay_shape (s m r : List Char) (h : wsDay s = some (m, r)) :
    (∃ ws d, m = ws ++ d ∧ ws ≠ [] ∧ ws.all pyWs = true ∧
      d ≠ [] ∧ d.length ≤ 2 ∧ d.all digitA = true) ∧ s = m ++ r := by
  simp only [wsDay] at h
  split_ifs at h with hem
  cases hd : dayDigits (s.dropWhile pyWs) with
  | none => rw [hd] at h; cases h
  | some dr =>
    obtain ⟨dd, rr⟩ := dr
    rw [hd] at h
    simp only [Option.some_inj, Prod.mk.injEq] at h
    obtain ⟨hm, hr⟩ := h
    obtain ⟨hne, hlen, hall, hsplit⟩ := dayDigits_shape _ _ _ hd
    subst hm hr
    refine ⟨⟨s.takeWhile pyWs, dd, rfl, ?_, List.all_takeWhile, hne, hlen, hall⟩, ?_⟩
    · simpa using hem
    · conv_lhs => rw [← List.takeWhile_append_dropWhile (p := pyWs) (l := s)]
      rw [hsplit, List.append_assoc]

theorem lowWsDay_shape (s m r : List Char) (h : lowWsDay s = some (m, r)) :
    (∃ low ws d, m = low ++ ws ++ d ∧
      low ≠ [] ∧ low.length ≤ 8 ∧ low.all lowerA = true ∧
      ws ≠ [] ∧ ws.all pyWs = true ∧
      d ≠ [] ∧ d.length ≤ 2 ∧ d.all digitA = true) ∧ s = m ++ r := by
  simp only [lowWsDay] at h
  split_ifs at h with hcond
  cases hw : wsDay (s.dropWhile lowerA) with
  | none => rw [hw] at h; cases h
  | some wr =>
    obtain ⟨wm, rr⟩ := wr
    rw [hw] at h
    simp only [Option.some_inj, Prod.mk.injEq] at h
    obtain ⟨hm, hr⟩ := h
    obtain ⟨⟨ws, dd, hwm, hws1, hws2, hd1, hd2, hd3⟩, hsplit⟩ := wsDay_shape _ _ _ hw
    subst hm hr hwm
    simp only [Bool.or_eq_true, not_or, Bool.not_eq_true, decide_eq_true_eq,
      not_lt, List.isEmpty_eq_true] at hcond
    refine ⟨⟨s.takeWhile lowerA, ws, dd, by simp [List.append_assoc], hcond.1, hcond.2,
      List.all_takeWhile, hws1, hws2, hd1, hd2, hd3⟩, ?_⟩
    conv_lhs => rw [← List.takeWhile_append_dropWhile (p := lowerA) (l := s)]
    rw [hsplit]
    simp [List.append_assoc]

theorem owlAt_shape (s m r : List Char) (h : owlAt s = some (m, r)) :
    (∃ ow low ws d, m = ow ++ low ++ ws ++ d ∧
      (ow = [] ∨ ∃ w, ow = [w] ∧ pyWs w = true) ∧
      low ≠ [] ∧ low.length ≤ 8 ∧ low.all lowerA = true ∧
      ws ≠ [] ∧ ws.all pyWs = true ∧
      d ≠ [] ∧ d.length ≤ 2 ∧ d.all digitA = true) ∧ s = m ++ r := by
  cases s with
  | nil => cases h
  | cons c rest =>
    simp only [owlAt] at h
    split_ifs at h with hc
    · cases hl : lowWsDay rest with
      | none => rw [hl] at h; cases h
      | some lr =>
        obtain ⟨lm, rr⟩ := lr
        rw [hl] at h
        simp only [Option.some_inj, Prod.mk.injEq] at h
        obtain ⟨hm, hr⟩ := h
        obtain ⟨⟨low, ws, dd, hlm, p1, p2, p3, p4, p5, p6, p7, p8⟩, hsplit⟩ :=
          lowWsDay_shape _ _ _ hl
        subst hm hr hlm
        exact ⟨⟨[c], low, ws, dd, by simp, Or.inr ⟨c, rfl, hc⟩,
          p1, p2, p3, p4, p5, p6, p7, p8⟩, by simp [hsplit]⟩
    · obtain ⟨⟨low, ws, dd, hlm, p1, p2, p3, p4, p5, p6, p7, p8⟩, hsplit⟩ :=
        lowWsDay_shape _ _ _ h
      exact ⟨⟨[], low, ws, dd, by simpa using hlm, Or.inl rfl,
        p1, p2, p3, p4, p5, p6, p7, p8⟩, hsplit⟩

theorem midTry_shape (j : Nat) (hj : j ≤ 8) :
    ∀ (s m r : List Char), midTry j s = some (m, r) →
    (∃ mid m2, m = mid ++ m2 ∧ mid.all lowPipe = true ∧ mid.length ≤ 8 ∧
      (∃ ow low ws d, m2 = ow ++ low ++ ws ++ d ∧
        (ow = [] ∨ ∃ w, ow = [w] ∧ pyWs w = true) ∧
        low ≠ [] ∧ low.length ≤ 8 ∧ low.all lowerA = true ∧
        ws ≠ [] ∧ ws.all pyWs = true ∧
        d ≠ [] ∧ d.length ≤ 2 ∧ d.all digitA = true)) ∧ s = m ++ r := by
  induction j with
  | zero =>
    intro s m r h
    obtain ⟨hshape, hsplit⟩ := owlAt_shape _ _ _ h
    exact ⟨⟨[], m, by simp, by simp, by simp, hshape⟩, hsplit⟩
  | succ j ih =>
    intro s m r h
    unfold midTry at h
    split_ifs at h with hcond
    · simp only [Bool.and_eq_true, decide_eq_true_eq] at hcond
      cases ho : owlAt (s.drop (j + 1)) with
      | none =>
        rw [ho] at h
        exact ih (Nat.le_of_succ_le hj) s m r h
      | some or2 =>
        obtain ⟨m2, rr⟩ := or2
        rw [ho] at h
        simp only [Option.some_inj, Prod.mk.injEq] at h
        obtain ⟨hm, hr⟩ := h
        obtain ⟨hshape, hsplit⟩ := owlAt_shape _ _ _ ho
        subst hm hr
        refine ⟨⟨s.take (j + 1), m2, rfl, hcond.2, ?_, hshape⟩, ?_⟩
        · rw [hcond.1]; exact hj
        · conv_lhs => rw [← List.take_append_drop (j + 1) s]
          rw [hsplit, List.append_assoc]
    · exact ih (Nat.le_of_succ_le hj) s m r h

theorem dateAt_shape (s m r : List Char) (h : dateAt s = some (m, r)) :
    (∃ c mid ow low ws d, m = c :: (mid ++ (ow ++ low ++ ws ++ d)) ∧
      initCC c = true ∧ mid.all lowPipe = true ∧ mid.length ≤ 8 ∧
      (ow = [] ∨ ∃ w, ow = [w] ∧ pyWs w = true) ∧
      low ≠ [] ∧ low.length ≤ 8 ∧ low.all lowerA = true ∧
      ws ≠ [] ∧ ws.all pyWs = true ∧
      d ≠ [] ∧ d.length ≤ 2 ∧ d.all digitA = true) ∧
    s = m ++ r ∧ m ≠ [] := by
  cases s with
  | nil => cases h
  | cons c rest =>
    simp only [dateAt] at h
    split_ifs at h with hc
    cases hm : midTry 8 rest with
    | none => rw [hm] at h; cases h
    | some mr2 =>
      obtain ⟨m1, rr⟩ := mr2
      rw [hm] at h
      simp only [Option.some_inj, Prod.mk.injEq] at h
      obtain ⟨hmm, hr⟩ := h
      obtain ⟨⟨mid, m2, hm1, q1, q2, hshape⟩, hsplit⟩ :=
        midTry_shape 8 (by omega) rest m1 rr hm
      obtain ⟨ow, low, ws, dd, hm2, w1, w2, w3, w4, w5, w6, w7, w8, w9⟩ := hshape
      subst hmm hr hm1 hm2
      exact ⟨⟨c, mid, ow, low, ws, dd, rfl, hc, q1, q2, w1, w2, w3, w4, w5,
        w6, w7, w8, w9⟩, by simp [hsplit], by simp⟩

theorem findallDateGo_mem :
    ∀ (fuel : Nat) (s m : List Char), m ∈ findallDateGo fuel s →
      ∃ s2 r, dateAt s2 = some (m, r) := by
  intro fuel
  induction fuel with
  | zero => intro s m h; simp [findallDateGo] at h
  | succ fuel ih =>
    intro s m h
    cases s with
    | nil => simp [findallDateGo] at h
    | cons c rest =>
      simp only [findallDateGo] at h
      cases hda : dateAt (c :: rest) with
      | none =>
        rw [hda] at h
        exact ih rest m h
      | some mr2 =>
        obtain ⟨m0, r0⟩ := mr2
        rw [hda] at h
        rcases List.mem_cons.mp h with h | h
        · exact ⟨c :: rest, r0, h ▸ hda⟩
        · exact ih r0 m h

/-- C7 amended: every candidate date-string the code extracts has the
shape of the source pattern
`[J|F|M|A|S|O|N|D][a-z|]{0,8}\s?[a-z]{1,8}\s+\d{1,2}(?!\d)`: an initial
character among J, F, M, A, S, O, N, D or a literal pipe; up to eight
lowercase-or-pipe characters; an optional single whitespace (the
mid-word line-break artifact); one to eight lowercase letters; a
whitespace run; and a 1-2 digit day number.  (The claim's "any
capitalized word of 1-9 letters" is wrong about the initial character
set, misses the optional interior whitespace, and miscounts the maximal
word length.) -/
theorem c7_date_shape_amended (s m : List Char) (h : m ∈ findallDate s) :
    ∃ c mid ow low ws d, m = c :: (mid ++ (ow ++ low ++ ws ++ d)) ∧
      initCC c = true ∧ mid.all lowPipe = true ∧ mid.length ≤ 8 ∧
      (ow = [] ∨ ∃ w, ow = [w] ∧ pyWs w = true) ∧
      low ≠ [] ∧ low.length ≤ 8 ∧ low.all lowerA = true ∧
      ws ≠ [] ∧ ws.all pyWs = true ∧
      d ≠ [] ∧ d.length ≤ 2 ∧ d.all digitA = true := by
  obtain ⟨s2, r, hda⟩ := findallDateGo_mem _ _ _ h
  exact (dateAt_shape _ _ _ hda).1

/-- Witness for the amended C7 at the extracted candidate "J uly 9". -/
theorem c7_date_shape_amended_witness :
    ∃ c mid ow low ws d,
      "J uly 9".toList = c :: (mid ++ (ow ++ low ++ ws ++ d)) ∧
      initCC c = true ∧ mid.all lowPipe = true ∧ mid.length ≤ 8 ∧
      (ow = [] ∨ ∃ w, ow = [w] ∧ pyWs w = true) ∧
      low ≠ [] ∧ low.length ≤ 8 ∧ low.all lowerA = true ∧
      ws ≠ [] ∧ ws.all pyWs = true ∧
      d ≠ [] ∧ d.length ≤ 2 ∧ d.all digitA = true :=
  c7_date_shape_amended "J uly 9".toList "J uly 9".toList (by decide)

/-! ## C9: each two-time match contains exactly two single-time matches -/

theorem dropWhile_all_append (p : Char → Bool) (tw l : List Char)
    (h : tw.all p = true) : (tw ++ l).dropWhile p = l.dropWhile p := by
  induction tw with
  | nil => rfl
  | cons c tw ih =>
    simp only [List.all_cons, Bool.and_eq_true] at h
    simp [List.dropWhile, h.1, ih h.2]

theorem takeWhile_all_append (p : Char → Bool) (tw : List Char) (a : Char)
    (l : List Char) (h : tw.all p = true) (ha : p a = false) :
    (tw ++ a :: l).takeWhile p = tw := by
  induction tw with
  | nil => simp [List.takeWhile, ha]
  | cons c tw ih =>
    simp only [List.all_cons, Bool.and_eq_true] at h
    simp [List.takeWhile, h.1, ih h.2]

theorem dropWhile_head_false (p : Char → Bool) :
    ∀ (l : List Char) (a : Char) (l2 : List Char),
      l.dropWhile p = a :: l2 → p a = false := by
  intro l
  induction l with
  | nil => intro a l2 h; cases h
  | cons c l ih =>
    intro a l2 h
    by_cases hc : p c = true
    · simp only [List.dropWhile, hc] at h
      exact ih a l2 h
    · simp only [List.dropWhile, Bool.not_eq_true] at hc
      simp only [List.dropWhile, hc] at h
      cases h
      simpa using hc

/-- Whitespace run followed by an `[a|p|A|P][m|M]` pair, and nothing
else: the tail of a single-time token after its minutes. -/
def wsApM (rest : List Char) : Bool :=
  match rest.dropWhile pyWs with
  | [p, q] => apCC p && mCC q
  | _ => false

/-- The tail `[:]\d{2}\s*[a|p|A|P][m|M]` of a single-time token. -/
def tailTok : List Char → Bool
  | ':' :: a :: b :: rest => digitA a && digitA b && wsApM rest
  | _ => false

/-- Exactly the strings the single-time pattern can match (one- and
two-digit hour forms). -/
def isTimeTok : List Char → Bool
  | d1 :: d2 :: rest =>
    if digitA d2 then digitA d1 && tailTok rest
    else digitA d1 && tailTok (d2 :: rest)
  | _ => false

theorem tailTok_shape (m : List Char) (h : tailTok m = true) :
    ∃ a b rest, m = ':' :: a :: b :: rest := by
  unfold tailTok at h
  split at h
  · rename_i a b rest
    exact ⟨a, b, rest, rfl⟩
  · cases h

theorem isTimeTok_ne_nil (m : List Char) (h : isTimeTok m = true) :
    ∃ c rest, m = c :: rest := by
  cases m with
  | nil => cases h
  | cons c rest => exact ⟨c, rest, rfl⟩

theorem timeTail_shape (s m r : List Char) (h : timeTail s = some (m, r)) :
    s = m ++ r ∧ tailTok m = true := by
  unfold timeTail at h
  split at h
  case _ m1 m2 rest =>
    split_ifs at h with hd
    cases hdw : rest.dropWhile pyWs with
    | nil => simp only [hdw] at h; cases h
    | cons a l2 =>
      cases l2 with
      | nil => simp only [hdw] at h; cases h
      | cons q l3 =>
        simp only [hdw] at h
        split_ifs at h with hap
        simp only [Option.some_inj, Prod.mk.injEq] at h
        obtain ⟨hm, hr⟩ := h
        subst hm hr
        have ha : pyWs a = false := dropWhile_head_false pyWs rest a (q :: l3) hdw
        constructor
        · have hrest : rest = rest.takeWhile pyWs ++ (a :: q :: l3) := by
            conv_lhs => rw [← List.takeWhile_append_dropWhile (p := pyWs) (l := rest)]
            rw [hdw]
          conv_lhs => rw [hrest]
          simp
        · simp only [tailTok, Bool.and_eq_true]
          simp only [Bool.and_eq_true] at hd
          refine ⟨⟨hd.1, hd.2⟩, ?_⟩
          unfold wsApM
          rw [dropWhile_all_append pyWs _ _ List.all_takeWhile]
          simp [List.dropWhile, ha, hap]
  case _ => cases h

theorem timeAt_shape (s m r : List Char) (h : timeAt s = some (m, r)) :
    s = m ++ r ∧ isTimeTok m = true := by
  unfold timeAt at h
  split at h
  case _ d1 d2 rest =>
    split_ifs at h with h1 h2
    · cases htt : timeTail rest with
      | none => rw [htt] at h; cases h
      | some mr2 =>
        obtain ⟨mt, rt⟩ := mr2
        rw [htt] at h
        simp only [Option.some_inj, Prod.mk.injEq] at h
        obtain ⟨hm, hr⟩ := h
        subst hm hr
        obtain ⟨hsp, htok⟩ := timeTail_shape _ _ _ htt
        constructor
        · simp [hsp]
        · simp [isTimeTok, h1, h2, htok]
    · cases htt : timeTail (d2 :: rest) with
      | none => rw [htt] at h; cases h
      | some mr2 =>
        obtain ⟨mt, rt⟩ := mr2
        rw [htt] at h
        simp only [Option.some_inj, Prod.mk.injEq] at h
        obtain ⟨hm, hr⟩ := h
        subst hm hr
        obtain ⟨hsp, htok⟩ := timeTail_shape _ _ _ htt
        obtain ⟨a, b, rest2, hmt⟩ := tailTok_shape _ htok
        have hcolon : digitA ':' = false := by decide
        constructor
        · rw [show (d1 :: mt) ++ rt = d1 :: (mt ++ rt) from rfl, ← hsp]
        · subst hmt
          simp [isTimeTok, h1, htok, hcolon]
  case _ => cases h

theorem tailTok_append (m : List Char) (h : tailTok m = true) (t : List Char) :
    timeTail (m ++ t) = some (m, t) := by
  obtain ⟨a, b, rest, hm⟩ := tailTok_shape _ h
  subst hm
  simp only [tailTok, Bool.and_eq_true] at h
  obtain ⟨⟨ha, hb⟩, hw⟩ := h
  unfold wsApM at hw
  cases hdw : rest.dropWhile pyWs with
  | nil => rw [hdw] at hw; cases hw
  | cons p l2 =>
    cases l2 with
    | nil => rw [hdw] at hw; cases hw
    | cons q l3 =>
      cases l3 with
      | cons x l4 => rw [hdw] at hw; cases hw
      | nil =>
        rw [hdw] at hw
        simp only [Bool.and_eq_true] at hw
        have hrest : rest = rest.takeWhile pyWs ++ [p, q] := by
          conv_lhs => rw [← List.takeWhile_append_dropWhile (p := pyWs) (l := rest)]
          rw [hdw]
        have hp : pyWs p = false := dropWhile_head_false pyWs rest p [q] hdw
        have hdw2 : (rest ++ t).dropWhile pyWs = p :: q :: t := by
          conv_lhs => rw [hrest]
          rw [List.append_assoc, dropWhile_all_append pyWs _ _ List.all_takeWhile]
          simp [List.dropWhile, hp]
        have htw2 : (rest ++ t).takeWhile pyWs = rest.takeWhile pyWs := by
          conv_lhs => rw [hrest]
          rw [List.append_assoc]
          exact takeWhile_all_append pyWs _ p (q :: t) List.all_takeWhile hp
        show timeTail (':' :: a :: b :: (rest ++ t)) = _
        simp only [timeTail]
        rw [if_pos (by simp [ha, hb])]
        simp only [hdw2, htw2]
        rw [if_pos (by simp [hw.1, hw.2])]
        conv_rhs => rw [hrest]

theorem timeTok_append (m : List Char) (h : isTimeTok m = true) (t : List Char) :
    timeAt (m ++ t) = some (m, t) := by
  obtain ⟨d1, m1, hm⟩ := isTimeTok_ne_nil m h
  subst hm
  cases m1 with
  | nil => cases h
  | cons d2 rest =>
    simp only [isTimeTok] at h
    split_ifs at h with h2 <;> simp only [Bool.and_eq_true] at h
    · show timeAt (d1 :: d2 :: (rest ++ t)) = _
      simp only [timeAt]
      rw [if_pos h.1, if_pos h2]
      simp only [tailTok_append rest h.2 t]
    · show timeAt (d1 :: d2 :: (rest ++ t)) = _
      simp only [timeAt]
      rw [if_pos h.1, if_neg (by simpa using h2)]
      have hta := tailTok_append (d2 :: rest) h.2 t
      rw [List.cons_append] at hta
      simp only [hta]
theorem timeAt_none_of_append (x r : List Char) (h : timeAt (x ++ r) = none) :
    timeAt x = none := by
  cases hx : timeAt x with
  | none => rfl
  | some mr =>
    obtain ⟨m2, r2⟩ := mr
    obtain ⟨hsp, htok⟩ := timeAt_shape _ _ _ hx
    have h2 := timeTok_append m2 htok (r2 ++ r)
    rw [hsp, List.append_assoc] at h
    rw [h2] at h
    cases h

theorem gapGo_shape :
    ∀ (fuel : Nat) (s g m2 r : List Char), gapGo fuel s = some (g, m2, r) →
      s = g ++ m2 ++ r ∧ isTimeTok m2 = true ∧
      ∀ g1 g2, g = g1 ++ g2 → g2 ≠ [] → timeAt (g2 ++ (m2 ++ r)) = none := by
  intro fuel
  induction fuel with
  | zero => intro s g m2 r h; cases h
  | succ fuel ih =>
    intro s g m2 r h
    cases s with
    | nil => cases h
    | cons c rest =>
      simp only [gapGo] at h
      cases hta : timeAt (c :: rest) with
      | some mr2 =>
        obtain ⟨mm, rr⟩ := mr2
        rw [hta] at h
        simp only [Option.some_inj, Prod.mk.injEq] at h
        obtain ⟨hg, hm, hr⟩ := h
        subst hg hm hr
        obtain ⟨hsp, htok⟩ := timeAt_shape _ _ _ hta
        refine ⟨by simpa using hsp, htok, fun g1 g2 hsplit hne => ?_⟩
        have hg2 : g2 = [] := (List.append_eq_nil.mp hsplit.symm).2
        exact absurd hg2 hne
      | none =>
        rw [hta] at h
        split_ifs at h with hnl
        cases hgo : gapGo fuel rest with
        | none => rw [hgo] at h; cases h
        | some gmr =>
          obtain ⟨g2, m3, r3⟩ := gmr
          rw [hgo] at h
          simp only [Option.some_inj, Prod.mk.injEq] at h
          obtain ⟨hg, hm, hr⟩ := h
          subst hg hm hr
          obtain ⟨hsp, htok, hnone⟩ := ih rest g2 m3 r3 hgo
          refine ⟨by simp [hsp], htok, ?_⟩
          intro g1 gg hsplit hne
          cases g1 with
          | nil =>
            simp only [List.nil_append] at hsplit
            subst hsplit
            have heq : c :: rest = c :: g2 ++ (m3 ++ r3) := by simp [hsp]
            rw [← heq]
            exact hta
          | cons x g1' =>
            injection hsplit with hx hrest
            subst hx
            exact hnone g1' gg hrest hne

theorem findallTimeGo_nil (fuel : Nat) : findallTimeGo fuel [] = [] := by
  cases fuel <;> rfl

theorem findallTimeGo_gap (m2 : List Char) (htok : isTimeTok m2 = true) :
    ∀ (g : List Char) (fuel : Nat), (g ++ m2).length ≤ fuel →
      (∀ g1 g2, g = g1 ++ g2 → g2 ≠ [] → timeAt (g2 ++ m2) = none) →
      findallTimeGo fuel (g ++ m2) = [m2] := by
  intro g
  induction g with
  | nil =>
    intro fuel hfuel hnone
    obtain ⟨c, rest, hm⟩ := isTimeTok_ne_nil m2 htok
    cases fuel with
    | zero => subst hm; simp at hfuel
    | succ fuel =>
      have hat : timeAt m2 = some (m2, []) := by
        have := timeTok_append m2 htok []
        simpa using this
      subst hm
      simp only [List.nil_append, findallTimeGo]
      rw [hat]
      simp [findallTimeGo_nil]
  | cons c g' ih =>
    intro fuel hfuel hnone
    cases fuel with
    | zero => simp at hfuel
    | succ fuel =>
      have hat : timeAt (c :: (g' ++ m2)) = none := by
        have := hnone [] (c :: g') rfl (by simp)
        simpa using this
      simp only [List.cons_append, findallTimeGo, List.append_eq]
      rw [hat]
      refine ih fuel ?_ ?_
      · simp only [List.length_append]
        simp only [List.cons_append, List.length_cons, List.length_append] at hfuel
        omega
      · intro g1 gg hsplit hne
        exact hnone (c :: g1) gg (by simp [hsplit]) hne

theorem findallTwoGo_mem :
    ∀ (fuel : Nat) (s m : List Char), m ∈ findallTwoGo fuel s →
      ∃ s2 r, twoTimeAt s2 = some (m, r) := by
  intro fuel
  induction fuel with
  | zero => intro s m h; simp [findallTwoGo] at h
  | succ fuel ih =>
    intro s m h
    cases s with
    | nil => simp [findallTwoGo] at h
    | cons c rest =>
      simp only [findallTwoGo] at h
      cases hta : twoTimeAt (c :: rest) with
      | none =>
        rw [hta] at h
        exact ih rest m h
      | some mr2 =>
        obtain ⟨m0, r0⟩ := mr2
        rw [hta] at h
        rcases List.mem_cons.mp h with h | h
        · exact ⟨c :: rest, r0, h ▸ hta⟩
        · exact ih r0 m h

/-- C9: within every substring matched by the two-time pattern, the
single-time pattern matches exactly twice (as `re.findall` counts
matches), so indexing the resulting tuple at positions 0 and 1 never
fails. -/
theorem c9_two_inner_matches (s m : List Char) (h : m ∈ findallTwoTime s) :
    (findallTime m).length = 2 := by
  obtain ⟨s2, r, hta⟩ := findallTwoGo_mem _ _ _ h
  unfold twoTimeAt at hta
  cases h1 : timeAt s2 with
  | none => rw [h1] at hta; cases hta
  | some mr1 =>
    obtain ⟨m1, r1⟩ := mr1
    simp only [h1] at hta
    cases h2 : gapGo r1.length r1 with
    | none => simp only [h2] at hta; cases hta
    | some gmr =>
      obtain ⟨g, m2, r2⟩ := gmr
      simp only [h2] at hta
      simp only [Option.some_inj, Prod.mk.injEq] at hta
      obtain ⟨hm, hr⟩ := hta
      subst hr
      obtain ⟨hsp1, htok1⟩ := timeAt_shape _ _ _ h1
      obtain ⟨hsp2, htok2, hnone⟩ := gapGo_shape _ _ _ _ _ h2
      obtain ⟨c, m1', hm1⟩ := isTimeTok_ne_nil m1 htok1
      have hmm : m = m1 ++ (g ++ m2) := by simp [← hm]
      subst hmm
      have hlen : (m1 ++ (g ++ m2)).length = m1.length + (g ++ m2).length := by
        simp
      rw [findallTime, hlen, hm1]
      have hfuel : m1'.length + 1 + (g ++ m2).length =
          (m1'.length + (g ++ m2).length) + 1 := by omega
      rw [show (c :: m1').length = m1'.length + 1 from by simp, hfuel]
      have hat1 : timeAt ((c :: m1') ++ (g ++ m2)) = some (c :: m1', g ++ m2) := by
        rw [← hm1]
        exact timeTok_append m1 htok1 (g ++ m2)
      simp only [List.cons_append, findallTimeGo, List.append_eq] at hat1 ⊢
      simp only [hat1]
      have hgap : findallTimeGo (m1'.length + (g ++ m2).length) (g ++ m2) = [m2] := by
        refine findallTimeGo_gap m2 htok2 g (m1'.length + (g ++ m2).length)
          (by simp) ?_
        intro g1 gg hsplit hne
        refine timeAt_none_of_append (gg ++ m2) r2 ?_
        rw [List.append_assoc]
        exact hnone g1 gg hsplit hne
      rw [hgap]
      rfl

/-- Witness for C9 at a concrete two-time match. -/
theorem c9_two_inner_matches_witness :
    (findallTime "9:00 am to 10:00 am".toList).length = 2 :=
  c9_two_inner_matches "x 9:00 am to 10:00 am y".toList
    "9:00 am to 10:00 am".toList (by decide)

/-! ## C10: start and end of an entry share the calendar date

The two strict parses of one loop iteration read the same
`"{date} {year} "` prefix and differ only in the time suffix.  The key
lemma `dateStages_append` shows the month/day/year stages of the format
match are insensitive to what follows the year's trailing space, because
every stage either stays inside the prefix or fails on the space. -/

theorem pyWs_of_digitA (c : Char) (h : digitA c = true) : pyWs c = false := by
  simp only [digitA, Bool.and_eq_true, decide_eq_true_eq] at h
  obtain ⟨h1, h2⟩ := h
  rw [Char.le_def] at h1 h2
  simp only [pyWs, List.mem_cons, List.not_mem_nil, or_false,
    decide_eq_false_iff_not]
  intro hmem
  have h1n : 48 ≤ c.toNat := h1
  have h2n : c.toNat ≤ 57 := h2
  rcases hmem with h | h | h | h | h | h | h | h | h | h | h | h | h | h | h |
    h | h | h | h | h | h | h | h | h | h | h | h | h | h <;> omega

theorem digitA_space : digitA ' ' = false := by decide

theorem ciDrop_append_guard (n : List Char) (hn : n.all lowerA = true) :
    ∀ (d z t : List Char),
      ciDrop n ((d ++ ' ' :: z) ++ t) =
        (ciDrop n (d ++ ' ' :: z)).map (fun x => x ++ t) := by
  induction n with
  | nil => intro d z t; simp [ciDrop]
  | cons nc n ih =>
    intro d z t
    simp only [List.all_cons, Bool.and_eq_true] at hn
    have hnsp : ¬(' '.toLower = nc) := by
      intro hh
      have : lowerA ' ' = true := by rw [show (' ' : Char) = ' '.toLower from rfl, hh]; exact hn.1
      cases this
    cases d with
    | nil =>
      simp only [List.nil_append, List.cons_append, ciDrop]
      rw [if_neg hnsp, if_neg hnsp]
      rfl
    | cons c d' =>
      simp only [List.cons_append, ciDrop]
      by_cases hc : c.toLower = nc
      · rw [if_pos hc, if_pos hc]
        exact ih hn.2 d' z t
      · rw [if_neg hc, if_neg hc]
        rfl

theorem ciDrop_space_struct (n : List Char) (hn : n.all lowerA = true) :
    ∀ (d z rr : List Char), ciDrop n (d ++ ' ' :: z) = some rr →
      ∃ d2, rr = d2 ++ ' ' :: z := by
  induction n with
  | nil =>
    intro d z rr h
    simp only [ciDrop, Option.some_inj] at h
    exact ⟨d, h.symm⟩
  | cons nc n ih =>
    intro d z rr h
    simp only [List.all_cons, Bool.and_eq_true] at hn
    have hnsp : ¬(' '.toLower = nc) := by
      intro hh
      have : lowerA ' ' = true := by rw [show (' ' : Char) = ' '.toLower from rfl, hh]; exact hn.1
      cases this
    cases d with
    | nil =>
      simp only [List.nil_append, ciDrop] at h
      rw [if_neg hnsp] at h
      cases h
    | cons c d' =>
      simp only [List.cons_append, ciDrop] at h
      by_cases hc : c.toLower = nc
      · rw [if_pos hc] at h
        exact ih hn.2 d' z rr h
      · rw [if_neg hc] at h
        cases h

theorem monthFind_append (tbl : List (List Char × Nat))
    (htbl : ∀ p ∈ tbl, p.1.all lowerA = true) (d z t : List Char) :
    monthFind tbl ((d ++ ' ' :: z) ++ t) =
      (monthFind tbl (d ++ ' ' :: z)).map (fun x => (x.1, x.2 ++ t)) := by
  induction tbl with
  | nil => rfl
  | cons p tbl ih =>
    obtain ⟨n, v⟩ := p
    have hn : n.all lowerA = true := htbl (n, v) (List.mem_cons_self _ _)
    simp only [monthFind]
    rw [ciDrop_append_guard n hn d z t]
    cases hc : ciDrop n (d ++ ' ' :: z) with
    | some rr => simp
    | none =>
      simp only [Option.map_none']
      exact ih fun q hq => htbl q (List.mem_cons_of_mem _ hq)

theorem monthFind_struct (tbl : List (List Char × Nat))
    (htbl : ∀ p ∈ tbl, p.1.all lowerA = true) (d z : List Char) (v : Nat)
    (rr : List Char) (h : monthFind tbl (d ++ ' ' :: z) = some (v, rr)) :
    ∃ d2, rr = d2 ++ ' ' :: z := by
  induction tbl with
  | nil => cases h
  | cons p tbl ih =>
    obtain ⟨n, v0⟩ := p
    have hn : n.all lowerA = true := htbl (n, v0) (List.mem_cons_self _ _)
    simp only [monthFind] at h
    cases hc : ciDrop n (d ++ ' ' :: z) with
    | some rr2 =>
      rw [hc] at h
      simp only [Option.some_inj, Prod.mk.injEq] at h
      obtain ⟨_, hr⟩ := h
      subst hr
      exact ciDrop_space_struct n hn d z rr2 hc
    | none =>
      rw [hc] at h
      exact ih (fun q hq => htbl q (List.mem_cons_of_mem _ hq)) h

theorem dropWhile_append_nonws (p : Char → Bool) :
    ∀ (l t : List Char), (∃ c ∈ l, p c = false) →
      (l ++ t).dropWhile p = l.dropWhile p ++ t := by
  intro l
  induction l with
  | nil => intro t h; simp at h
  | cons c l ih =>
    intro t h
    by_cases hc : p c = true
    · simp only [List.cons_append, List.dropWhile, hc]
      refine ih t ?_
      obtain ⟨c0, hmem, hc0⟩ := h
      rcases List.mem_cons.mp hmem with rfl | hmem
      · rw [hc] at hc0; cases hc0
      · exact ⟨c0, hmem, hc0⟩
    · simp only [Bool.not_eq_true] at hc
      simp [List.cons_append, List.dropWhile, hc]

theorem wsSkip_append (Q t : List Char) (h : ∃ c ∈ Q, pyWs c = false) :
    wsSkip (Q ++ t) = (wsSkip Q).map (fun x => x ++ t) := by
  cases Q with
  | nil => simp at h
  | cons c Q' =>
    by_cases hc : pyWs c = true
    · simp only [List.cons_append, wsSkip, hc, if_true, Option.map_some']
      have hw : ∃ c0 ∈ Q', pyWs c0 = false := by
        obtain ⟨c0, hmem, hc0⟩ := h
        rcases List.mem_cons.mp hmem with rfl | hmem
        · rw [hc] at hc0; cases hc0
        · exact ⟨c0, hmem, hc0⟩
      rw [dropWhile_append_nonws pyWs Q' t hw]
    · simp only [Bool.not_eq_true] at hc
      simp [wsSkip, hc]

theorem wsSkip_space_struct (d2 : List Char) (z0 : Char) (zr : List Char)
    (hz0 : pyWs z0 = false) (r2 : List Char)
    (h : wsSkip (d2 ++ ' ' :: (z0 :: zr)) = some r2) :
    r2 = z0 :: zr ∨ ∃ c3 e3, r2 = (c3 :: e3) ++ ' ' :: (z0 :: zr) ∧ pyWs c3 = false := by
  cases d2 with
  | nil =>
    simp only [List.nil_append, wsSkip] at h
    rw [if_pos (by decide)] at h
    simp only [Option.some_inj] at h
    subst h
    left
    simp [List.dropWhile, hz0]
  | cons c0 d2' =>
    simp only [List.cons_append, wsSkip] at h
    split_ifs at h with hc0
    simp only [Option.some_inj] at h
    subst h
    cases hdw : d2'.dropWhile pyWs with
    | nil =>
      left
      have hall : d2'.all pyWs = true := by
        rw [List.all_eq_true]
        intro x hx
        exact List.dropWhile_eq_nil_iff.mp hdw x hx
      rw [dropWhile_all_append pyWs d2' _ hall]
      simp [List.dropWhile, hz0, show pyWs ' ' = true from by decide]
    | cons c3 e3 =>
      right
      have hc3f : pyWs c3 = false := dropWhile_head_false pyWs d2' c3 e3 hdw
      have hc3mem : c3 ∈ d2' := by
        have hsub : c3 ∈ d2'.dropWhile pyWs := by
          rw [hdw]; exact List.mem_cons_self _ _
        exact (List.dropWhile_suffix pyWs).subset hsub
      refine ⟨c3, e3, ?_, hc3f⟩
      rw [dropWhile_append_nonws pyWs d2' (' ' :: (z0 :: zr)) ⟨c3, hc3mem, hc3f⟩,
        hdw]

theorem dayNum_append (Q t : List Char) (h : 2 ≤ Q.length) :
    dayNum (Q ++ t) = (dayNum Q).map (fun x => (x.1, x.2 ++ t)) := by
  match Q, h with
  | c1 :: c2 :: Q', _ =>
    show dayNum (c1 :: c2 :: (Q' ++ t)) = _
    simp only [dayNum]
    split_ifs <;> simp

theorem dayNum_consume (Q : List Char) (v : Nat) (r : List Char)
    (h : dayNum Q = some (v, r)) :
    (∃ a, Q = a :: r) ∨ (∃ a b, Q = a :: b :: r) := by
  unfold dayNum at h
  split at h
  case _ d1 d2 rest =>
    split_ifs at h <;> simp only [Option.some_inj, Prod.mk.injEq] at h
    · exact Or.inr ⟨d1, d2, by rw [h.2]⟩
    · exact Or.inl ⟨d1, by rw [h.2]⟩
  case _ d1 =>
    split_ifs at h
    simp only [Option.some_inj, Prod.mk.injEq] at h
    exact Or.inl ⟨d1, by rw [h.2]⟩
  case _ => cases h

theorem year4_nd1 (a : Char) (X : List Char) (ha : digitA a = false) :
    year4 (a :: X) = none := by
  rcases X with _ | ⟨b, _ | ⟨c, _ | ⟨d, rest⟩⟩⟩ <;> simp [year4, ha]

theorem year4_nd2 (a b : Char) (X : List Char) (hb : digitA b = false) :
    year4 (a :: b :: X) = none := by
  rcases X with _ | ⟨c, _ | ⟨d, rest⟩⟩ <;> simp [year4, hb]

theorem year4_nd3 (a b c : Char) (X : List Char) (hc : digitA c = false) :
    year4 (a :: b :: c :: X) = none := by
  rcases X with _ | ⟨d, rest⟩ <;> simp [year4, hc]

theorem year4_nd4 (a b c d : Char) (X : List Char) (hd : digitA d = false) :
    year4 (a :: b :: c :: d :: X) = none := by
  simp [year4, hd]

theorem year4_append (Q t : List Char) (h : ∃ c ∈ Q, digitA c = false) :
    year4 (Q ++ t) = (year4 Q).map (fun x => (x.1, x.2 ++ t)) := by
  rcases Q with _ | ⟨a, _ | ⟨b, _ | ⟨c, _ | ⟨d, Q'⟩⟩⟩⟩
  · simp at h
  · obtain ⟨c0, hmem, hc0⟩ := h
    rcases List.mem_cons.mp hmem with rfl | hmem
    · rw [show [c0] ++ t = c0 :: t from rfl, year4_nd1 _ _ hc0]
      simp [year4]
    · simp at hmem
  · obtain ⟨c0, hmem, hc0⟩ := h
    by_cases ha : digitA a = false
    · rw [show [a, b] ++ t = a :: b :: t from rfl, year4_nd1 _ _ ha]
      simp [year4]
    · have hb : digitA b = false := by
        rcases List.mem_cons.mp hmem with rfl | hmem
        · exact absurd hc0 ha
        · rcases List.mem_cons.mp hmem with rfl | hmem
          · exact hc0
          · simp at hmem
      rw [show [a, b] ++ t = a :: b :: t from rfl, year4_nd2 _ _ _ hb]
      simp [year4]
  · obtain ⟨c0, hmem, hc0⟩ := h
    by_cases ha : digitA a = false
    · rw [show [a, b, c] ++ t = a :: b :: c :: t from rfl, year4_nd1 _ _ ha]
      simp [year4]
    · by_cases hb : digitA b = false
      · rw [show [a, b, c] ++ t = a :: b :: c :: t from rfl, year4_nd2 _ _ _ hb]
        simp [year4]
      · have hc : digitA c = false := by
          rcases List.mem_cons.mp hmem with rfl | hmem
          · exact absurd hc0 ha
          · rcases List.mem_cons.mp hmem with rfl | hmem
            · exact absurd hc0 hb
            · rcases List.mem_cons.mp hmem with rfl | hmem
              · exact hc0
              · simp at hmem
        rw [show [a, b, c] ++ t = a :: b :: c :: t from rfl, year4_nd3 _ _ _ _ hc]
        simp [year4]
  · show year4 (a :: b :: c :: d :: (Q' ++ t)) = _
    simp only [year4]
    split_ifs <;> simp

/-- The month/day/year stages of the format match read only the
`date ++ " " ++ year ++ " "` prefix: appending any suffix after the
year's trailing space changes only the returned rest.  Every stage
either stays inside the prefix or fails on a character of the prefix
(the four year digits block the whitespace stages from crossing, and the
trailing space blocks the digit stages). -/
theorem dateStages_append (y0 y1 y2 y3 : Char) (h0 : digitA y0 = true)
    (h1 : digitA y1 = true) (h2 : digitA y2 = true) (h3 : digitA y3 = true)
    (d t : List Char) :
    dateStages ((d ++ ' ' :: y0 :: y1 :: y2 :: y3 :: [' ']) ++ t) =
      (dateStages (d ++ ' ' :: y0 :: y1 :: y2 :: y3 :: [' '])).map
        (fun p => (p.1, p.2 ++ t)) := by
  have hz0 : pyWs y0 = false := pyWs_of_digitA _ h0
  have hz2 : pyWs y2 = false := pyWs_of_digitA _ h2
  have htbl : ∀ p ∈ monthTbl, p.1.all lowerA = true := by decide
  have hMapp := monthFind_append monthTbl htbl d (y0 :: y1 :: y2 :: y3 :: [' ']) t
  simp only [List.cons_append, List.nil_append, List.append_assoc] at hMapp
  simp only [dateStages, List.cons_append, List.nil_append, List.append_assoc]
  cases hMA : monthAt (d ++ ' ' :: y0 :: y1 :: y2 :: y3 :: [' ']) with
  | none =>
    rw [show monthFind monthTbl (d ++ ' ' :: y0 :: y1 :: y2 :: y3 :: [' ']) = none
      from hMA, Option.map_none'] at hMapp
    have hMont : monthAt (d ++ ' ' :: y0 :: y1 :: y2 :: y3 :: ' ' :: t) = none := hMapp
    simp [hMont]
  | some p =>
    obtain ⟨mo, r1⟩ := p
    rw [show monthFind monthTbl (d ++ ' ' :: y0 :: y1 :: y2 :: y3 :: [' ']) =
      some (mo, r1) from hMA, Option.map_some'] at hMapp
    have hMont : monthAt (d ++ ' ' :: y0 :: y1 :: y2 :: y3 :: ' ' :: t) =
        some (mo, r1 ++ t) := hMapp
    simp only [hMont, List.cons_append, List.nil_append, List.append_assoc]
    obtain ⟨d2, hd2⟩ := monthFind_struct monthTbl htbl d _ mo r1 hMA
    subst hd2
    -- whitespace after the month name
    have hwit : ∃ c ∈ d2 ++ ' ' :: y0 :: y1 :: y2 :: y3 :: [' '], pyWs c = false :=
      ⟨y0, by simp, hz0⟩
    have hWapp := wsSkip_append _ t hwit
    simp only [List.cons_append, List.nil_append, List.append_assoc] at hWapp
    cases hW : wsSkip (d2 ++ ' ' :: y0 :: y1 :: y2 :: y3 :: [' ']) with
    | none =>
      rw [hW, Option.map_none'] at hWapp
      simp [hWapp]
    | some r2 =>
      rw [hW, Option.map_some'] at hWapp
      simp only [hWapp, List.cons_append, List.nil_append, List.append_assoc]
      rcases wsSkip_space_struct d2 y0 (y1 :: y2 :: y3 :: [' ']) hz0 r2 hW with
        hreg | ⟨c3, e3, hreg, hc3⟩
      · -- the whitespace ran up to the year digits: the day stage takes
        -- two of them and the next whitespace stage fails on the third
        subst hreg
        have hDapp := dayNum_append (y0 :: y1 :: y2 :: y3 :: [' ']) t (by simp)
        simp only [List.cons_append, List.nil_append] at hDapp
        cases hd : dayNum (y0 :: y1 :: y2 :: y3 :: [' ']) with
        | none =>
          rw [hd, Option.map_none'] at hDapp
          simp [hDapp]
        | some p2 =>
          obtain ⟨da, r3⟩ := p2
          rw [hd, Option.map_some'] at hDapp
          simp only [hDapp, List.cons_append, List.nil_append, List.append_assoc]
          have hr3 : r3 = y2 :: y3 :: [' '] := by
            simp only [dayNum, h0, h1, if_true] at hd
            split_ifs at hd
            simp only [Option.some_inj, Prod.mk.injEq] at hd
            exact hd.2.symm
          subst hr3
          have hn1 : wsSkip (y2 :: y3 :: [' ']) = none := by
            simp [wsSkip, hz2]
          have hn2 : wsSkip (y2 :: y3 :: ' ' :: t) = none := by
            simp [wsSkip, hz2]
          simp [hn1, hn2]
      · -- a non-whitespace character still precedes the year
        subst hreg
        have hDapp := dayNum_append ((c3 :: e3) ++ ' ' :: y0 :: y1 :: y2 :: y3 :: [' '])
          t (by simp)
        simp only [List.cons_append, List.nil_append, List.append_assoc] at hDapp
        simp only [List.cons_append, List.nil_append, List.append_assoc]
        cases hd : dayNum (c3 :: (e3 ++ ' ' :: y0 :: y1 :: y2 :: y3 :: [' '])) with
        | none =>
          rw [hd, Option.map_none'] at hDapp
          simp [hDapp]
        | some p2 =>
          obtain ⟨da, r3⟩ := p2
          rw [hd, Option.map_some'] at hDapp
          simp only [hDapp, List.cons_append, List.nil_append, List.append_assoc]
          have hr3 : r3 = y0 :: y1 :: y2 :: y3 :: [' '] ∨
              ∃ E, r3 = E ++ ' ' :: y0 :: y1 :: y2 :: y3 :: [' '] := by
            rcases dayNum_consume _ _ _ hd with ⟨a, hQ⟩ | ⟨a, b, hQ⟩
            · injection hQ with ha hr
              exact Or.inr ⟨e3, hr.symm⟩
            · injection hQ with ha hr
              cases e3 with
              | nil =>
                simp only [List.nil_append] at hr
                injection hr with hb hr2
                exact Or.inl hr2.symm
              | cons c4 e3' =>
                rw [List.cons_append] at hr
                injection hr with hb hr2
                exact Or.inr ⟨e3', hr2.symm⟩
          rcases hr3 with hr3 | ⟨E, hr3⟩
          · subst hr3
            have hn1 : wsSkip (y0 :: y1 :: y2 :: y3 :: [' ']) = none := by
              simp [wsSkip, hz0]
            have hn2 : wsSkip (y0 :: y1 :: y2 :: y3 :: ' ' :: t) = none := by
              simp [wsSkip, hz0]
            simp [hn1, hn2]
          · subst hr3
            have hWapp2 := wsSkip_append (E ++ ' ' :: y0 :: y1 :: y2 :: y3 :: [' ']) t
              ⟨y0, by simp, hz0⟩
            simp only [List.cons_append, List.nil_append, List.append_assoc] at hWapp2
            simp only [List.cons_append, List.nil_append, List.append_assoc]
            cases hW2 : wsSkip (E ++ ' ' :: y0 :: y1 :: y2 :: y3 :: [' ']) with
            | none =>
              rw [hW2, Option.map_none'] at hWapp2
              simp [hWapp2]
            | some r4 =>
              rw [hW2, Option.map_some'] at hWapp2
              simp only [hWapp2, List.cons_append, List.nil_append, List.append_assoc]
              rcases wsSkip_space_struct E y0 (y1 :: y2 :: y3 :: [' ']) hz0 r4 hW2 with
                hr4 | ⟨c5, e5, hr4, hc5⟩
              · subst hr4
                have hYb : year4 (y0 :: y1 :: y2 :: y3 :: [' ']) =
                    some (1000 * dVal y0 + 100 * dVal y1 + 10 * dVal y2 + dVal y3,
                      [' ']) := by
                  simp [year4, h0, h1, h2, h3]
                have hYl : year4 (y0 :: y1 :: y2 :: y3 :: ' ' :: t) =
                    some (1000 * dVal y0 + 100 * dVal y1 + 10 * dVal y2 + dVal y3,
                      ' ' :: t) := by
                  simp [year4, h0, h1, h2, h3]
                simp [hYb, hYl]
              · subst hr4
                have hYapp := year4_append
                  ((c5 :: e5) ++ ' ' :: y0 :: y1 :: y2 :: y3 :: [' ']) t
                  ⟨' ', by simp, digitA_space⟩
                simp only [List.cons_append, List.nil_append, List.append_assoc] at hYapp
                simp only [List.cons_append, List.nil_append, List.append_assoc]
                cases hY : year4 (c5 :: (e5 ++ ' ' :: y0 :: y1 :: y2 :: y3 :: [' '])) with
                | none =>
                  rw [hY, Option.map_none'] at hYapp
                  simp [hYapp]
                | some p4 =>
                  obtain ⟨ye, r5⟩ := p4
                  rw [hY, Option.map_some'] at hYapp
                  simp [hYapp]

theorem search4_shape (text : List Char) :
    ∀ y, search4 text = some y → y.length = 4 ∧ y.all digitA = true := by
  induction text with
  | nil => intro y h; cases h
  | cons a rest ih =>
    intro y h
    cases rest with
    | nil => simp [search4] at h
    | cons b r2 =>
      cases r2 with
      | nil => simp [search4] at h
      | cons c r3 =>
        cases r3 with
        | nil => simp [search4] at h
        | cons d1 r4 =>
          simp only [search4] at h
          split_ifs at h with hd
          · simp only [Option.some_inj] at h
            subst h
            simp_all
          · exact ih y h

theorem strpFull_shape (s : List Char) (r : DT) (h : strpFull s = some r) :
    ∃ mo da ye rest, dateStages s = some ((mo, da, ye), rest) ∧
      r.month = mo ∧ r.day = da ∧ r.year = ye := by
  unfold strpFull at h
  cases hds : dateStages s with
  | none => rw [hds] at h; cases h
  | some p =>
    obtain ⟨⟨mo, da, ye⟩, rest⟩ := p
    simp only [hds] at h
    refine ⟨mo, da, ye, rest, rfl, ?_⟩
    cases hts : timeStages rest with
    | none => simp only [hts] at h; cases h
    | some p2 =>
      obtain ⟨⟨hh, mi, pm⟩, rest2⟩ := p2
      simp only [hts] at h
      split_ifs at h with h1 h2
      simp only [Option.some_inj] at h
      subst h
      exact ⟨rfl, rfl, rfl⟩

theorem entryOf_ok (d y : List Char) (t : List (List Char)) (en : Entry)
    (h : entryOf d y t = Except.ok en) :
    ∃ st et, strpFull (fmt3 (correctDate d y) y st) = some en.startT ∧
      strpFull (fmt3 (correctDate d y) y et) = some en.endT := by
  unfold entryOf at h
  split at h
  · split at h
    · cases h
      exact ⟨_, _, by assumption, by assumption⟩
    · cases h
  · cases h

theorem schedLoop_mem (ts : List (List (List Char))) :
    ∀ (ds : List (List Char)) (y : List Char) (e : Entry),
      e ∈ (schedLoop ds ts y).1 →
      ∃ dd st et, strpFull (fmt3 dd y st) = some e.startT ∧
        strpFull (fmt3 dd y et) = some e.endT := by
  induction ts with
  | nil => intro ds y e he; cases ds <;> simp [schedLoop] at he
  | cons t ts ih =>
    intro ds y e he
    cases ds with
    | nil => simp [schedLoop] at he
    | cons d ds =>
      cases hE : entryOf d y t with
      | error m => simp [schedLoop, hE] at he
      | ok en =>
        simp only [schedLoop, hE] at he
        rcases List.mem_cons.mp he with rfl | he2
        · obtain ⟨st, et, h1, h2⟩ := entryOf_ok d y t e hE
          exact ⟨correctDate d y, st, et, h1, h2⟩
        · exact ih ds y e he2

/-- C10: every schedule entry the extractor appends has its start and
end timestamps on the same calendar date (both strict parses share the
`"{date} {year} "` prefix, and the date stages never read past the
year's trailing space), and no check that start precedes end is
performed: the extractor happily emits an entry whose end time is
earlier in the day than its start time. -/
theorem c10_same_calendar_date :
    (∀ (text : List Char) (e : Entry), e ∈ (runSchedulePdf text).1 →
      e.startT.year = e.endT.year ∧ e.startT.month = e.endT.month ∧
      e.startT.day = e.endT.day) ∧
    (∃ (text : List Char) (e : Entry), e ∈ (runSchedulePdf text).1 ∧
      e.endT.hour < e.startT.hour) := by
  constructor
  · intro text e he
    unfold runSchedulePdf at he
    cases hy : search4 text with
    | none => rw [hy] at he; simp at he
    | some y =>
      simp only [hy] at he
      split_ifs at he with hloc hlen
      · simp at he
      · simp at he
      · obtain ⟨dd, st, et, hS, hE⟩ := schedLoop_mem _ _ _ _ he
        obtain ⟨hylen, hydig⟩ := search4_shape text y hy
        rcases y with _ | ⟨a, _ | ⟨b, _ | ⟨c, _ | ⟨d4, _ | ⟨x, ytail⟩⟩⟩⟩⟩ <;>
          simp_all
        obtain ⟨ha, hb, hc, hd4⟩ : digitA a = true ∧ digitA b = true ∧
            digitA c = true ∧ digitA d4 = true := by simp_all
        have hfmtS : fmt3 dd [a, b, c, d4] st =
            (dd ++ ' ' :: a :: b :: c :: d4 :: [' ']) ++ st := by
          simp [fmt3]
        have hfmtE : fmt3 dd [a, b, c, d4] et =
            (dd ++ ' ' :: a :: b :: c :: d4 :: [' ']) ++ et := by
          simp [fmt3]
        rw [hfmtS] at hS
        rw [hfmtE] at hE
        obtain ⟨mo1, da1, ye1, r1, hds1, hm1, hd1, hy1⟩ := strpFull_shape _ _ hS
        obtain ⟨mo2, da2, ye2, r2, hds2, hm2, hd2, hy2⟩ := strpFull_shape _ _ hE
        have hdsa := dateStages_append a b c d4 ha hb hc hd4 dd st
        have hdsb := dateStages_append a b c d4 ha hb hc hd4 dd et
        cases hbase : dateStages (dd ++ ' ' :: a :: b :: c :: d4 :: [' ']) with
        | none =>
          rw [hbase, Option.map_none'] at hdsa
          rw [hdsa] at hds1
          cases hds1
        | some pb =>
          obtain ⟨⟨mo0, da0, ye0⟩, r0⟩ := pb
          rw [hbase, Option.map_some'] at hdsa hdsb
          rw [hdsa] at hds1
          rw [hdsb] at hds2
          simp only [Option.some_inj, Prod.mk.injEq] at hds1 hds2
          obtain ⟨⟨hmo1, hda1, hye1⟩, _⟩ := hds1
          obtain ⟨⟨hmo2, hda2, hye2⟩, _⟩ := hds2
          refine ⟨?_, ?_, ?_⟩
          · rw [hy1, hy2, ← hye1, ← hye2]
          · rw [hm1, hm2, ← hmo1, ← hmo2]
          · rw [hd1, hd2, ← hda1, ← hda2]
  · refine ⟨"440 2022 May 2 9:00 pm 7:00 am".toList,
      Entry.mk ⟨2022, 5, 2, 21, 0⟩ ⟨2022, 5, 2, 7, 0⟩, ?_, ?_⟩
    · decide
    · decide

/-- Witness for C10's universal part at a concrete extracted entry. -/
theorem c10_same_calendar_date_witness :
    (Entry.mk ⟨2022, 5, 2, 21, 0⟩ ⟨2022, 5, 2, 7, 0⟩).startT.year =
      (Entry.mk ⟨2022, 5, 2, 21, 0⟩ ⟨2022, 5, 2, 7, 0⟩).endT.year ∧
    (Entry.mk ⟨2022, 5, 2, 21, 0⟩ ⟨2022, 5, 2, 7, 0⟩).startT.month =
      (Entry.mk ⟨2022, 5, 2, 21, 0⟩ ⟨2022, 5, 2, 7, 0⟩).endT.month ∧
    (Entry.mk ⟨2022, 5, 2, 21, 0⟩ ⟨2022, 5, 2, 7, 0⟩).startT.day =
      (Entry.mk ⟨2022, 5, 2, 21, 0⟩ ⟨2022, 5, 2, 7, 0⟩).endT.day :=
  c10_same_calendar_date.1 "440 2022 May 2 9:00 pm 7:00 am".toList
    (Entry.mk ⟨2022, 5, 2, 21, 0⟩ ⟨2022, 5, 2, 7, 0⟩) (by decide)

end Desc
